import Mathlib

/-!
# Verification of the country-metadata maintenance scripts

Shallow embedding of `scripts/update_lengths.py` and
`scripts/validate_countries.py`.

Text is modelled as `List Char`.  The two regular expressions of the
scripts are embedded as executable scanners implementing Python `re`
semantics for those concrete patterns (leftmost match, non-greedy
`(?:.|\n)*?` as "least position at which the remainder of the pattern
completes", greedy `\s*` / `\d+` as maximal runs; both patterns are
compiled with `re.DOTALL`).  Character classes `\d`, `\s` and `[A-Z]`
are modelled over their ASCII ranges (Python additionally accepts some
Unicode code points in `\d`/`\s`; none of the properties proved here
distinguish them).
-/

/-- `\d` (ASCII range). -/
def isDigitC (c : Char) : Bool := ('0' ≤ c) && (c ≤ '9')

/-- `\s` (ASCII range: space, tab, newline, carriage return, vertical tab, form feed). -/
def isSpaceC (c : Char) : Bool :=
  (c = ' ') || (c = '\t') || (c = '\n') || (c = '\r') || (c = '\x0b') || (c = '\x0c')

/-- `[A-Z]`. -/
def isUpperC (c : Char) : Bool := ('A' ≤ c) && (c ≤ 'Z')

/-- Numeric value of a decimal-digit string (used by `int(...)` on regex groups). -/
def digitsVal (s : List Char) : Nat := s.foldl (fun a c => 10 * a + (c.toNat - 48)) 0

/-- Python `int(...)` restricted to the digit tokens produced by `\d+` groups:
succeeds exactly on nonempty all-digit strings. -/
def pyParseDigits? (s : List Char) : Option Nat :=
  if s ≠ [] ∧ s.all isDigitC then some (digitsVal s) else none

/-- Python `str.strip()`. -/
def stripWs (s : List Char) : List Char :=
  ((s.dropWhile isSpaceC).reverse.dropWhile isSpaceC).reverse

/-- Python `int(...)` on an arbitrary CSV field: optional surrounding whitespace,
optional sign, nonempty digit string.  (Python also accepts underscores between
digits and non-ASCII decimal digits; omitted, no property proved here depends
on those inputs.) -/
def pyInt? (s : List Char) : Option Int :=
  match stripWs s with
  | [] => none
  | '-' :: ds => if ds ≠ [] ∧ ds.all isDigitC then some (-(digitsVal ds : Int)) else none
  | '+' :: ds => if ds ≠ [] ∧ ds.all isDigitC then some ((digitsVal ds : Int)) else none
  | ds => if ds.all isDigitC then some ((digitsVal ds : Int)) else none

/-- Decimal digit character for a value `< 10`. -/
def digitChar (n : Nat) : Char := Char.ofNat (48 + n)

/-- Digits of `n` prepended to `acc` (fuelled: `fuel ≥ n` always suffices,
see `natToDecAux_eq`). -/
def natToDecAux : Nat → Nat → List Char → List Char
  | 0, n, acc => digitChar n :: acc
  | fuel + 1, n, acc =>
    if n < 10 then digitChar n :: acc
    else natToDecAux fuel (n / 10) (digitChar (n % 10) :: acc)

/-- Canonical decimal rendering of a natural number (Python `str` on a
nonnegative `int`). -/
def natToDec (n : Nat) : List Char := natToDecAux n n []

/-- Python `str` on an `int` (the f-string interpolation of the replacer). -/
def pyStr (i : Int) : List Char :=
  if i < 0 then '-' :: natToDec ((-i).toNat) else natToDec i.toNat

/-- Lookup in an association list keyed by strings: Python `dict` read
(`code in lengths` / `lengths[code]`, keys are unique by construction). -/
def lookupD {α : Type} : List (List Char × α) → List Char → Option α
  | [], _ => none
  | (k', v) :: ds, k => if k' = k then some v else lookupD ds k

/-- Python `dict` write `d[k] = v`: replace in place when the key exists,
else append (insertion order preserved). -/
def dictInsert {α : Type} (d : List (List Char × α)) (k : List Char) (v : α) :
    List (List Char × α) :=
  if d.any (fun kv => decide (kv.1 = k)) then
    d.map (fun kv => if kv.1 = k then (k, v) else kv)
  else d ++ [(k, v)]

/-- One row of `reports/authoritative.csv` as read by `csv.DictReader`
(only the columns the script uses). -/
structure CsvRow where
  code : List Char
  min_length : List Char
  max_length : List Char

/-- `update_lengths.load_authoritative`: build the `code -> (min, max)` map,
silently dropping rows whose `min_length`/`max_length` do not parse as
integers or are non-positive. -/
def load_authoritative (rows : List CsvRow) : List (List Char × (Int × Int)) :=
  rows.foldl
    (fun d row =>
      match pyInt? row.min_length, pyInt? row.max_length with
      | some mn, some mx =>
        if mn ≤ 0 ∨ mx ≤ 0 then d else dictInsert d (stripWs row.code) (mn, mx)
      | _, _ => d)
    []

/-! ## The scanner for `country_re`

```
(Country\(\s*(?:.|\n)*?code:\s*"(?P<code>[A-Z]{2})"\s*,(?:.|\n)*?minLength:\s*)
(?P<min>\d+)(\s*,\s*\n\s*maxLength:\s*)(?P<max>\d+)
```
-/

/-- Match a literal string at the head of the input, returning the rest. -/
def matchLit : List Char → List Char → Option (List Char)
  | [], s => some s
  | _ :: _, [] => none
  | l :: ls, c :: cs => if c = l then matchLit ls cs else none

/-- `l.any (· = '\n')`, used for the `\s*\n\s*` part of group 4. -/
def hasNl (l : List Char) : Bool := l.any (fun c => decide (c = '\n'))

/-- The pieces of one match of `country_re` that surround the `code` group:
group 1 tail from `minLength:` on, the two digit groups and group 4. -/
structure MinMaxParts where
  lead : List Char
  minTok : List Char
  sep : List Char
  maxTok : List Char
deriving DecidableEq, Repr

/-- Attempt `minLength:\s*(\d+)(\s*,\s*\n\s*maxLength:\s*)(\d+)` at the head
of the input. -/
def tryMinMax (s : List Char) : Option (MinMaxParts × List Char) :=
  match matchLit "minLength:".data s with
  | none => none
  | some s1 =>
    let w1 := s1.takeWhile isSpaceC
    let s2 := s1.dropWhile isSpaceC
    let d1 := s2.takeWhile isDigitC
    let s3 := s2.dropWhile isDigitC
    if d1 = [] then none else
    let w2 := s3.takeWhile isSpaceC
    match s3.dropWhile isSpaceC with
    | [] => none
    | c :: s5 =>
      if c = ',' then
        let w3 := s5.takeWhile isSpaceC
        let s6 := s5.dropWhile isSpaceC
        if hasNl w3 then
          match matchLit "maxLength:".data s6 with
          | none => none
          | some s7 =>
            let w4 := s7.takeWhile isSpaceC
            let s8 := s7.dropWhile isSpaceC
            let d2 := s8.takeWhile isDigitC
            let s9 := s8.dropWhile isDigitC
            if d2 = [] then none
            else some (⟨"minLength:".data ++ w1, d1,
                        w2 ++ ',' :: (w3 ++ "maxLength:".data ++ w4), d2⟩, s9)
        else none
      else none

/-- Least position at which `tryMinMax` succeeds (the `(?:.|\n)*?` before
`minLength:`): returns the skipped text, the parts and the rest. -/
def findMinMax : List Char → Option (List Char × MinMaxParts × List Char)
  | [] => none
  | c :: cs =>
    match tryMinMax (c :: cs) with
    | some (p, r) => some ([], p, r)
    | none =>
      match findMinMax cs with
      | some (sk, p, r) => some (c :: sk, p, r)
      | none => none

/-- Attempt `code:\s*"([A-Z]{2})"\s*,` at the head of the input, returning
the consumed text, the two-letter code and the rest. -/
def tryCode (s : List Char) : Option (List Char × List Char × List Char) :=
  match matchLit "code:".data s with
  | none => none
  | some s1 =>
    let w1 := s1.takeWhile isSpaceC
    match s1.dropWhile isSpaceC with
    | q1 :: c1 :: c2 :: q2 :: s3 =>
      if q1 = '"' ∧ q2 = '"' ∧ isUpperC c1 ∧ isUpperC c2 then
        let w2 := s3.takeWhile isSpaceC
        match s3.dropWhile isSpaceC with
        | c :: s5 =>
          if c = ',' then
            some ("code:".data ++ w1 ++ '"' :: c1 :: c2 :: '"' :: (w2 ++ [',']), [c1, c2], s5)
          else none
        | [] => none
      else none
    | _ => none

/-- Least position at which the code part matches *and* the min/max part can
still be found after it (the backtracking of the two non-greedy gaps). -/
def findCodeMM : List Char →
    Option (List Char × (List Char × List Char) × List Char × MinMaxParts × List Char)
  | [] => none
  | c :: cs =>
    match tryCode (c :: cs) with
    | some (ccons, code, r) =>
      match findMinMax r with
      | some (sk2, mm, rest) => some ([], (ccons, code), sk2, mm, rest)
      | none =>
        match findCodeMM cs with
        | some (sk, x, sk2, mm, rest) => some (c :: sk, x, sk2, mm, rest)
        | none => none
    | none =>
      match findCodeMM cs with
      | some (sk, x, sk2, mm, rest) => some (c :: sk, x, sk2, mm, rest)
      | none => none

/-- One match of `country_re`: group 1, the `code` group, the `min` group,
group 4 and the `max` group.  `group(0) = g1 ++ minTok ++ sep ++ maxTok`. -/
structure CountryMatch where
  g1 : List Char
  code : List Char
  minTok : List Char
  sep : List Char
  maxTok : List Char
deriving DecidableEq, Repr

/-- `m.group(0)`. -/
def wholeMatch (m : CountryMatch) : List Char := m.g1 ++ m.minTok ++ m.sep ++ m.maxTok

/-- Attempt the full pattern at the head of the input. -/
def tryCountryAt (s : List Char) : Option (CountryMatch × List Char) :=
  match matchLit "Country(".data s with
  | none => none
  | some s1 =>
    match findCodeMM s1 with
    | some (sk, (ccons, code), sk2, mm, rest) =>
      some (⟨"Country(".data ++ sk ++ ccons ++ sk2 ++ mm.lead,
             code, mm.minTok, mm.sep, mm.maxTok⟩, rest)
    | none => none

/-- Leftmost match of `country_re`: the text before the match, the match and
the rest of the input. -/
def findCountry : List Char → Option (List Char × CountryMatch × List Char)
  | [] => none
  | c :: cs =>
    match tryCountryAt (c :: cs) with
    | some (m, r) => some ([], m, r)
    | none =>
      match findCountry cs with
      | some (p, m, r) => some (c :: p, m, r)
      | none => none

/-- The successive non-overlapping matches of `country_re`, as `re.sub` and
`re.finditer` enumerate them (fuelled; each match consumes at least one
character, so fuel `length + 1` is always enough). -/
def subChunks : Nat → List Char → List (List Char × CountryMatch) × List Char
  | 0, s => ([], s)
  | fuel + 1, s =>
    match findCountry s with
    | none => ([], s)
    | some (p, m, r) =>
      let (cs, t) := subChunks fuel r
      ((p, m) :: cs, t)

/-- The match/gap decomposition of a text under `country_re`. -/
def countryChunks (s : List Char) : List (List Char × CountryMatch) × List Char :=
  subChunks (s.length + 1) s

/-- Reassemble a decomposition, rendering every match through `f`
(`re.sub` applies the replacement function to each match). -/
def renderChunks : List (List Char × CountryMatch) → List Char → (CountryMatch → List Char) →
    List Char
  | [], t, _ => t
  | (p, m) :: cs, t, f => p ++ f m ++ renderChunks cs t f

/-- Line 65 of the script: `new_min = auth_min if auth_min < current_min else current_min`. -/
def mergeMin (amin cmin : Int) : Int := if amin < cmin then amin else cmin

/-- Lines 67-69: `new_max = auth_max if auth_max > 0 else current_max`
(the `isinstance(auth_max, int)` test is always true, the map is typed
`Dict[str, Tuple[int, int]]`). -/
def mergeMax (amax cmax : Int) : Int := if 0 < amax then amax else cmax

/-- `update_lengths.replacer`.  The `isinstance(auth_min, int)` test is always
true; `int()` on the `\d+` groups is `pyParseDigits?` (the `try/except` around
it is kept as the `none` branches). -/
def replacer (L : List (List Char × (Int × Int))) (m : CountryMatch) : List Char :=
  match lookupD L m.code with
  | none => wholeMatch m
  | some (amin, amax) =>
    if amin ≤ 0 then wholeMatch m
    else
      match pyParseDigits? m.minTok, pyParseDigits? m.maxTok with
      | some cmin, some cmax =>
        if mergeMin amin (cmin : Int) = (cmin : Int) ∧ mergeMax amax (cmax : Int) = (cmax : Int)
        then wholeMatch m
        else m.g1 ++ pyStr (mergeMin amin (cmin : Int)) ++ m.sep ++ pyStr (mergeMax amax (cmax : Int))
      | _, _ => wholeMatch m

/-- `update_lengths.update_lengths`: `country_re.sub(replacer, dart_source)`. -/
def update_lengths (L : List (List Char × (Int × Int))) (s : List Char) : List Char :=
  renderChunks (countryChunks s).1 (countryChunks s).2 (replacer L)

/-- The numeric value of the `minLength` token in the block the replacer emits
for match `m` (`none` when the current token does not parse — the block is then
left unchanged and carries no parsed value). -/
def patchedMinVal (L : List (List Char × (Int × Int))) (m : CountryMatch) : Option Int :=
  match pyParseDigits? m.minTok, pyParseDigits? m.maxTok with
  | some cmin, some _ =>
    match lookupD L m.code with
    | none => some (cmin : Int)
    | some (amin, _) => if amin ≤ 0 then some (cmin : Int) else some (mergeMin amin (cmin : Int))
  | some cmin, none => some (cmin : Int)
  | none, _ => none

/-- The numeric value of the `maxLength` token in the block the replacer emits
for match `m`. -/
def patchedMaxVal (L : List (List Char × (Int × Int))) (m : CountryMatch) : Option Int :=
  match pyParseDigits? m.minTok, pyParseDigits? m.maxTok with
  | some _, some cmax =>
    match lookupD L m.code with
    | none => some (cmax : Int)
    | some (amin, amax) => if amin ≤ 0 then some (cmax : Int) else some (mergeMax amax (cmax : Int))
  | none, some cmax => some (cmax : Int)
  | _, none => none

/-! ## The scanner for `COUNTRY_ENTRY_RE` (validate_countries.py)

Verbose-mode pattern, with the ignored layout whitespace removed:
```
Country\(\s*name:\s*"(?P<name>[^"]+)"\s*,(?:(?:.|\n)*?)code:\s*"(?P<code>[A-Z]{2})"\s*,
(?:(?:.|\n)*?)dialCode:\s*"(?P<dial>\d+)"\s*,(?:(?:.|\n)*?)
minLength:\s*(?P<min>\d+)\s*,\s*maxLength:\s*(?P<max>\d+)\s*,?\s*\)
```
-/

/-- `[^"]` as a Bool predicate. -/
def notQuote (c : Char) : Bool := !decide (c = '"')

/-- Attempt `minLength:\s*(\d+)\s*,\s*maxLength:\s*(\d+)\s*,?\s*\)` at the
head of the input. -/
def tryMinMax2 (s : List Char) : Option ((List Char × List Char) × List Char) :=
  match matchLit "minLength:".data s with
  | none => none
  | some s1 =>
    let s2 := s1.dropWhile isSpaceC
    let d1 := s2.takeWhile isDigitC
    let s3 := s2.dropWhile isDigitC
    if d1 = [] then none else
    match s3.dropWhile isSpaceC with
    | [] => none
    | c :: s5 =>
      if c = ',' then
        let s6 := s5.dropWhile isSpaceC
        match matchLit "maxLength:".data s6 with
        | none => none
        | some s7 =>
          let s8 := s7.dropWhile isSpaceC
          let d2 := s8.takeWhile isDigitC
          let s9 := s8.dropWhile isDigitC
          if d2 = [] then none else
          match s9.dropWhile isSpaceC with
          | [] => none
          | c2 :: s11 =>
            if c2 = ',' then
              match s11.dropWhile isSpaceC with
              | c3 :: s13 => if c3 = ')' then some ((d1, d2), s13) else none
              | [] => none
            else if c2 = ')' then some ((d1, d2), s11)
            else none
      else none

/-- Least position at which `tryMinMax2` succeeds. -/
def findMM2 : List Char → Option ((List Char × List Char) × List Char)
  | [] => none
  | c :: cs =>
    match tryMinMax2 (c :: cs) with
    | some r => some r
    | none => findMM2 cs

/-- Attempt `dialCode:\s*"(\d+)"\s*,` at the head of the input. -/
def tryDial (s : List Char) : Option (List Char × List Char) :=
  match matchLit "dialCode:".data s with
  | none => none
  | some s1 =>
    match s1.dropWhile isSpaceC with
    | [] => none
    | q1 :: s3 =>
      if q1 = '"' then
        let d := s3.takeWhile isDigitC
        match s3.dropWhile isDigitC with
        | [] => none
        | q2 :: s5 =>
          if d ≠ [] ∧ q2 = '"' then
            match s5.dropWhile isSpaceC with
            | [] => none
            | c :: s7 => if c = ',' then some (d, s7) else none
          else none
      else none

/-- Least dial position after which the min/max part can still be found. -/
def findDial : List Char → Option ((List Char × (List Char × List Char)) × List Char)
  | [] => none
  | c :: cs =>
    match tryDial (c :: cs) with
    | some (d, r) =>
      match findMM2 r with
      | some (mm, rest) => some ((d, mm), rest)
      | none => findDial cs
    | none => findDial cs

/-- Least code position after which the dial and min/max parts can still be
found, in that order. -/
def findCodeD : List Char →
    Option ((List Char × List Char × (List Char × List Char)) × List Char)
  | [] => none
  | c :: cs =>
    match tryCode (c :: cs) with
    | some (_, code, r) =>
      match findDial r with
      | some ((d, mm), rest) => some ((code, d, mm), rest)
      | none => findCodeD cs
    | none => findCodeD cs

/-- The five named groups of one match of `COUNTRY_ENTRY_RE`. -/
structure EntryMatch where
  name : List Char
  code : List Char
  dial : List Char
  minTok : List Char
  maxTok : List Char
deriving DecidableEq, Repr

/-- Attempt the full entry pattern at the head of the input. -/
def tryEntryAt (s : List Char) : Option (EntryMatch × List Char) :=
  match matchLit "Country(".data s with
  | none => none
  | some s1 =>
    match matchLit "name:".data (s1.dropWhile isSpaceC) with
    | none => none
    | some s3 =>
      match s3.dropWhile isSpaceC with
      | [] => none
      | q1 :: s5 =>
        if q1 = '"' then
          let nm := s5.takeWhile notQuote
          if nm = [] then none else
          match s5.dropWhile notQuote with
          | [] => none
          | q2 :: s7 =>
            if q2 = '"' then
              match s7.dropWhile isSpaceC with
              | [] => none
              | c :: s9 =>
                if c = ',' then
                  match findCodeD s9 with
                  | some ((code, d, (d1, d2)), rest) => some (⟨nm, code, d, d1, d2⟩, rest)
                  | none => none
                else none
            else none
        else none

/-- Leftmost match of `COUNTRY_ENTRY_RE`. -/
def findEntry : List Char → Option (EntryMatch × List Char)
  | [] => none
  | c :: cs =>
    match tryEntryAt (c :: cs) with
    | some r => some r
    | none => findEntry cs

/-- Successive non-overlapping matches (`re.finditer`), fuelled. -/
def entriesAux : Nat → List Char → List EntryMatch
  | 0, _ => []
  | fuel + 1, s =>
    match findEntry s with
    | none => []
    | some (e, r) => e :: entriesAux fuel r

/-- All matches of `COUNTRY_ENTRY_RE` in a text. -/
def countryEntries (s : List Char) : List EntryMatch := entriesAux (s.length + 1) s

/-- `validate_countries.CountryRow`. -/
structure CountryRow where
  code : List Char
  name : List Char
  dial_code : List Char
  min_length : Nat
  max_length : Nat
deriving DecidableEq, Repr

/-- The row built from one match in `parse_countries_dart`'s loop
(`.strip()` on the string groups, `int()` on the digit groups). -/
def toRow (e : EntryMatch) : CountryRow :=
  ⟨stripWs e.code, stripWs e.name, stripWs e.dial, digitsVal e.minTok, digitsVal e.maxTok⟩

/-- `validate_countries.parse_countries_dart` on the file's text: the list of
matched rows, or a raised `RuntimeError` when no entry matched. -/
def parse_countries_dart (text : List Char) : Except (List Char) (List CountryRow) :=
  let rows := (countryEntries text).map toRow
  if rows = [] then Except.error "No Country(...) entries parsed from countries.dart".data
  else Except.ok rows

/-- `validate_countries.index_by_code`. -/
def index_by_code (rows : List CountryRow) : List (List Char × CountryRow) :=
  rows.foldl (fun d r => dictInsert d r.code r) []

/-- One row of `diff.csv`. -/
structure DiffRow where
  code : List Char
  current_name : List Char
  authoritative_name : List Char
  current_dial_code : List Char
  authoritative_dial_code : List Char
  current_min_length : List Char
  authoritative_min_length : List Char
  current_max_length : List Char
  authoritative_max_length : List Char
  note : List Char
deriving DecidableEq, Repr

/-- The loop body of `build_diff_rows` for one item of `current_by_code`. -/
def diffFor (authIdx : List (List Char × CountryRow)) (kv : List Char × CountryRow) :
    Option DiffRow :=
  match lookupD authIdx kv.1 with
  | none =>
    some ⟨kv.1, kv.2.name, [], kv.2.dial_code, [], natToDec kv.2.min_length, [],
          natToDec kv.2.max_length, [], "Missing in authoritative".data⟩
  | some a =>
    if kv.2.dial_code ≠ a.dial_code ∨ kv.2.min_length ≠ a.min_length ∨
        kv.2.max_length ≠ a.max_length then
      some ⟨kv.1, kv.2.name, a.name, kv.2.dial_code, a.dial_code,
            natToDec kv.2.min_length, natToDec a.min_length,
            natToDec kv.2.max_length, natToDec a.max_length, []⟩
    else none

/-- `validate_countries.build_diff_rows`. -/
def build_diff_rows (current_rows authoritative_rows : List CountryRow) : List DiffRow :=
  (index_by_code current_rows).filterMap (diffFor (index_by_code authoritative_rows))

/-! ## Well-formed rendered entries (for the parsing claim) -/

/-- The data of one well-formed `Country(...)` entry of the local data file. -/
structure EntrySpec where
  name : List Char
  c1 : Char
  c2 : Char
  dial : List Char
  minT : List Char
  maxT : List Char
deriving DecidableEq

/-- Well-formedness of an entry: nonempty quote-free name with no surrounding
whitespace, an upper-case two-letter code, nonempty digit strings for the dial
code and the two lengths. -/
def entryWF (e : EntrySpec) : Prop :=
  e.name ≠ [] ∧ e.name.all notQuote ∧ stripWs e.name = e.name ∧
  isUpperC e.c1 ∧ isUpperC e.c2 ∧
  e.dial ≠ [] ∧ e.dial.all isDigitC ∧
  e.minT ≠ [] ∧ e.minT.all isDigitC ∧
  e.maxT ≠ [] ∧ e.maxT.all isDigitC

/-- The canonical source text of one entry. -/
def renderEntry (e : EntrySpec) : List Char :=
  "Country(name: \"".data ++ e.name ++ "\", code: \"".data ++ [e.c1, e.c2] ++
  "\", dialCode: \"".data ++ e.dial ++ "\", minLength: ".data ++ e.minT ++
  ", maxLength: ".data ++ e.maxT ++ "),\n".data

/-- A local data file made of well-formed entries. -/
def renderFile (es : List EntrySpec) : List Char := (es.map renderEntry).flatten

/-- The row the specification expects for one well-formed entry: every field
is the literal source text (integers parsed from their decimal digits). -/
def specRow (e : EntrySpec) : CountryRow :=
  ⟨[e.c1, e.c2], e.name, e.dial, digitsVal e.minT, digitsVal e.maxT⟩

/-! ## Match shapes and invariants of the `country_re` scanner -/

/-- Head of a text is not a digit (or the text is empty): the maximality
condition left behind by a preceding `\\d+` group. -/
def headNotDigit : List Char → Bool
  | [] => true
  | c :: _ => !isDigitC c

/-- The full structure of one `country_re` match apart from its digit tokens. -/
structure CShape where
  sk : List Char
  w1 : List Char
  c1 : Char
  c2 : Char
  w2c : List Char
  sk2 : List Char
  wl : List Char
  w2 : List Char
  w3 : List Char
  w4 : List Char

/-- The text consumed by the code part of a match. -/
def ccOf (g : CShape) : List Char :=
  "code:".data ++ g.w1 ++ '"' :: g.c1 :: g.c2 :: '"' :: (g.w2c ++ [','])

/-- Group 1 of a match with shape `g`. -/
def g1Of (g : CShape) : List Char :=
  "Country(".data ++ g.sk ++ ccOf g ++ g.sk2 ++ "minLength:".data ++ g.wl

/-- Group 4 of a match with shape `g`. -/
def sepOf (g : CShape) : List Char :=
  g.w2 ++ ',' :: (g.w3 ++ "maxLength:".data ++ g.w4)

/-- The match with shape `g` and digit tokens `a` and `b`. -/
def mOf (g : CShape) (a b : List Char) : CountryMatch :=
  ⟨g1Of g, [g.c1, g.c2], a, sepOf g, b⟩

/-- A digit token of a match: nonempty, all digits. -/
def tokOK (a : List Char) : Prop := a ≠ [] ∧ a.all isDigitC = true

/-- Well-formedness of the whitespace/letter components of a match shape. -/
def shapeWF (g : CShape) : Prop :=
  isUpperC g.c1 = true ∧ isUpperC g.c2 = true ∧
  g.w1.all isSpaceC = true ∧ g.w2c.all isSpaceC = true ∧ g.wl.all isSpaceC = true ∧
  g.w2.all isSpaceC = true ∧ g.w3.all isSpaceC = true ∧ g.w4.all isSpaceC = true ∧
  hasNl g.w3 = true

/-- Failure of the regex backtracking attempt "code part here, min/max part
later" at one position. -/
def codeStepFail (t : List Char) : Prop :=
  tryCode t = none ∨ ∃ cc cd u, tryCode t = some (cc, cd, u) ∧ findMinMax u = none

/-- The text of a candidate match after `Country(`, with digit tokens `a`, `b`
and rest `r`. -/
def innerText (g : CShape) (a b r : List Char) : List Char :=
  g.sk ++ ccOf g ++ g.sk2 ++ "minLength:".data ++ g.wl ++ a ++ sepOf g ++ b ++ r

/-- The minimality facts of the two non-greedy gaps of a match. -/
def minimality (g : CShape) (a b r : List Char) : Prop :=
  (∀ j < g.sk.length, codeStepFail (List.drop j (innerText g a b r))) ∧
  (∀ j < g.sk2.length,
    tryMinMax (List.drop j
      (g.sk2 ++ "minLength:".data ++ g.wl ++ a ++ sepOf g ++ b ++ r)) = none)

/-- The text consumed by one min/max part. -/
def mmText (mm : MinMaxParts) : List Char := mm.lead ++ mm.minTok ++ mm.sep ++ mm.maxTok

/-- Reassembly of a decomposition with explicitly given digit tokens. -/
def renderTok : List (List Char × CountryMatch) → List (List Char × List Char) → List Char →
    List Char
  | [], _, t => t
  | (p, _) :: cs, [], t => p ++ renderTok cs [] t
  | (p, m) :: cs, (a, b) :: tk, t => p ++ m.g1 ++ a ++ m.sep ++ b ++ renderTok cs tk t

/-- Digit-run equivalence: the two texts are equal except that corresponding
maximal nonempty digit runs may differ.  Replacing the digit tokens of matches
with other digit tokens produces a `DEq`-related text, and every scanner takes
the same control path on `DEq`-related inputs. -/
inductive DEq : List Char → List Char → Prop
  | nil : DEq [] []
  | cons (c : Char) {s t : List Char} (hc : isDigitC c = false) (h : DEq s t) :
      DEq (c :: s) (c :: t)
  | run (a b : List Char) {s t : List Char}
      (ha : a ≠ [] ∧ a.all isDigitC = true) (hb : b ≠ [] ∧ b.all isDigitC = true)
      (hs : headNotDigit s = true) (ht : headNotDigit t = true) (h : DEq s t) :
      DEq (a ++ s) (b ++ t)

/-! ## Helper lemmas -/

theorem mergeMin_eq_min (a c : Int) : mergeMin a c = min a c := by
  unfold mergeMin
  by_cases h : a < c
  · rw [if_pos h, min_eq_left (le_of_lt h)]
  · rw [if_neg h, min_eq_right (le_of_not_lt h)]

theorem lookupD_mem {α : Type} {d : List (List Char × α)} {k : List Char} {v : α}
    (h : lookupD d k = some v) : (k, v) ∈ d := by
  induction d with
  | nil => simp [lookupD] at h
  | cons kv ds ih =>
    obtain ⟨k', v'⟩ := kv
    by_cases hk : k' = k
    · subst hk
      simp [lookupD] at h
      subst h
      exact List.mem_cons_self _ _
    · simp [lookupD, hk] at h
      exact List.mem_cons_of_mem _ (ih h)

theorem dictInsert_mem {α : Type} {d : List (List Char × α)} {k : List Char} {v : α}
    {kv : List Char × α} (h : kv ∈ dictInsert d k v) : kv ∈ d ∨ kv = (k, v) := by
  unfold dictInsert at h
  by_cases hc : d.any (fun kv => decide (kv.1 = k))
  · rw [if_pos hc] at h
    obtain ⟨x, hx, hfx⟩ := List.mem_map.mp h
    by_cases hxk : x.1 = k
    · right; rw [if_pos hxk] at hfx; exact hfx.symm
    · left; rw [if_neg hxk] at hfx; exact hfx ▸ hx
  · rw [if_neg hc] at h
    rcases List.mem_append.mp h with h' | h'
    · exact Or.inl h'
    · exact Or.inr (List.mem_singleton.mp h')

theorem load_authoritative_mem {rows : List CsvRow} {kv : List Char × (Int × Int)}
    (h : kv ∈ load_authoritative rows) : 1 ≤ kv.2.1 ∧ 1 ≤ kv.2.2 := by
  unfold load_authoritative at h
  suffices H : ∀ (d : List (List Char × (Int × Int))),
      (∀ kv' ∈ d, 1 ≤ kv'.2.1 ∧ 1 ≤ kv'.2.2) →
      ∀ kv' ∈ rows.foldl
        (fun d row =>
          match pyInt? row.min_length, pyInt? row.max_length with
          | some mn, some mx =>
            if mn ≤ 0 ∨ mx ≤ 0 then d else dictInsert d (stripWs row.code) (mn, mx)
          | _, _ => d) d, 1 ≤ kv'.2.1 ∧ 1 ≤ kv'.2.2 by
    exact H [] (by simp) kv h
  clear h
  induction rows with
  | nil => intro d hd kv' h; exact hd kv' h
  | cons row rows ih =>
    intro d hd kv' h
    refine ih _ ?_ kv' h
    intro kv'' hkv''
    rcases hmn : pyInt? row.min_length with _ | mn <;>
      rcases hmx : pyInt? row.max_length with _ | mx <;>
      simp only [hmn, hmx] at hkv''
    · exact hd _ hkv''
    · exact hd _ hkv''
    · exact hd _ hkv''
    · by_cases hz : mn ≤ 0 ∨ mx ≤ 0
      · rw [if_pos hz] at hkv''; exact hd _ hkv''
      · rw [if_neg hz] at hkv''
        rcases dictInsert_mem hkv'' with h' | h'
        · exact hd _ h'
        · subst h'
          exact ⟨show (1 : Int) ≤ mn by omega, show (1 : Int) ≤ mx by omega⟩

/-! ## Claims about the replacer and the authoritative map -/

/-- C1: for a matched entry whose code has an authoritative pair with
`auth_min > 0` and whose current tokens parse, the patched `minLength` value is
`min(current_min, auth_min)`; in particular it is never raised above the
current value.  The patched block is either the original text (when nothing
changes) or the rebuilt block carrying exactly that minimum. -/
theorem replacer_min_is_min (L : List (List Char × (Int × Int))) (m : CountryMatch)
    (amin amax : Int) (cmin cmax : Nat)
    (hL : lookupD L m.code = some (amin, amax))
    (hpos : 0 < amin)
    (hmin : pyParseDigits? m.minTok = some cmin)
    (hmax : pyParseDigits? m.maxTok = some cmax) :
    patchedMinVal L m = some (min amin (cmin : Int)) ∧
    min amin (cmin : Int) ≤ (cmin : Int) ∧
    (replacer L m = wholeMatch m ∨
      replacer L m =
        m.g1 ++ pyStr (min amin (cmin : Int)) ++ m.sep ++ pyStr (mergeMax amax (cmax : Int))) := by
  have hneg : ¬ amin ≤ 0 := by omega
  refine ⟨?_, min_le_right _ _, ?_⟩
  · unfold patchedMinVal
    rw [hmin, hmax, hL]
    simp only [if_neg hneg, mergeMin_eq_min]
  · simp only [replacer, hL, hmin, hmax, if_neg hneg]
    by_cases hch : mergeMin amin (cmin : Int) = (cmin : Int) ∧ mergeMax amax (cmax : Int) = (cmax : Int)
    · rw [if_pos hch]; exact Or.inl rfl
    · rw [if_neg hch, mergeMin_eq_min]; exact Or.inr rfl

theorem replacer_min_is_min_witness :
    (lookupD [("US".data, ((7 : Int), (12 : Int)))] "US".data = some (7, 12) ∧
      (0 : Int) < 7 ∧
      pyParseDigits? "10".data = some 10 ∧
      pyParseDigits? "11".data = some 11) ∧
    (patchedMinVal [("US".data, ((7 : Int), (12 : Int)))]
        ⟨"g1".data, "US".data, "10".data, "sep".data, "11".data⟩ = some (min 7 (10 : Int)) ∧
      min (7 : Int) (10 : Int) ≤ (10 : Int) ∧
      (replacer [("US".data, ((7 : Int), (12 : Int)))]
          ⟨"g1".data, "US".data, "10".data, "sep".data, "11".data⟩ =
        wholeMatch ⟨"g1".data, "US".data, "10".data, "sep".data, "11".data⟩ ∨
       replacer [("US".data, ((7 : Int), (12 : Int)))]
          ⟨"g1".data, "US".data, "10".data, "sep".data, "11".data⟩ =
        "g1".data ++ pyStr (min 7 (10 : Int)) ++ "sep".data ++ pyStr (mergeMax 12 (11 : Int)))) :=
  ⟨⟨by decide, by decide, by decide, by decide⟩,
    replacer_min_is_min [("US".data, ((7 : Int), (12 : Int)))]
      ⟨"g1".data, "US".data, "10".data, "sep".data, "11".data⟩ 7 12 10 11
      (by decide) (by decide) (by decide) (by decide)⟩

/-- C2: for a matched entry whose code has an authoritative pair with
`auth_min > 0`, the patched `maxLength` value equals the authoritative maximum
whenever it is positive — in either direction — and the current maximum
otherwise. -/
theorem replacer_max_follows_authoritative (L : List (List Char × (Int × Int)))
    (m : CountryMatch) (amin amax : Int) (cmin cmax : Nat)
    (hL : lookupD L m.code = some (amin, amax))
    (hpos : 0 < amin)
    (hmin : pyParseDigits? m.minTok = some cmin)
    (hmax : pyParseDigits? m.maxTok = some cmax) :
    (0 < amax → patchedMaxVal L m = some amax) ∧
    (amax ≤ 0 → patchedMaxVal L m = some (cmax : Int)) ∧
    (replacer L m = wholeMatch m ∨
      replacer L m =
        m.g1 ++ pyStr (mergeMin amin (cmin : Int)) ++ m.sep ++ pyStr (mergeMax amax (cmax : Int))) := by
  have hneg : ¬ amin ≤ 0 := by omega
  refine ⟨?_, ?_, ?_⟩
  · intro hp
    unfold patchedMaxVal
    rw [hmin, hmax, hL]
    simp only [if_neg hneg, mergeMax, if_pos hp]
  · intro hp
    unfold patchedMaxVal
    rw [hmin, hmax, hL]
    have : ¬ (0 : Int) < amax := by omega
    simp only [if_neg hneg, mergeMax, if_neg this]
  · simp only [replacer, hL, hmin, hmax, if_neg hneg]
    by_cases hch : mergeMin amin (cmin : Int) = (cmin : Int) ∧ mergeMax amax (cmax : Int) = (cmax : Int)
    · rw [if_pos hch]; exact Or.inl rfl
    · rw [if_neg hch]; exact Or.inr rfl

theorem replacer_max_follows_authoritative_witness :
    (lookupD [("DE".data, ((3 : Int), (15 : Int)))] "DE".data = some (3, 15) ∧
      (0 : Int) < 3 ∧
      pyParseDigits? "5".data = some 5 ∧
      pyParseDigits? "11".data = some 11) ∧
    (((0 : Int) < 15 → patchedMaxVal [("DE".data, ((3 : Int), (15 : Int)))]
        ⟨"g".data, "DE".data, "5".data, "s".data, "11".data⟩ = some 15) ∧
      ((15 : Int) ≤ 0 → patchedMaxVal [("DE".data, ((3 : Int), (15 : Int)))]
        ⟨"g".data, "DE".data, "5".data, "s".data, "11".data⟩ = some ((11 : Nat) : Int)) ∧
      (replacer [("DE".data, ((3 : Int), (15 : Int)))]
          ⟨"g".data, "DE".data, "5".data, "s".data, "11".data⟩ =
        wholeMatch ⟨"g".data, "DE".data, "5".data, "s".data, "11".data⟩ ∨
       replacer [("DE".data, ((3 : Int), (15 : Int)))]
          ⟨"g".data, "DE".data, "5".data, "s".data, "11".data⟩ =
        "g".data ++ pyStr (mergeMin 3 (5 : Int)) ++ "s".data ++ pyStr (mergeMax 15 (11 : Int)))) :=
  ⟨⟨by decide, by decide, by decide, by decide⟩,
    replacer_max_follows_authoritative [("DE".data, ((3 : Int), (15 : Int)))]
      ⟨"g".data, "DE".data, "5".data, "s".data, "11".data⟩ 3 15 5 11
      (by decide) (by decide) (by decide) (by decide)⟩

/-- C4: a matched entry is left byte-identical when its code is absent from the
map, the authoritative minimum is non-positive, or a current token fails
integer parsing; and `load_authoritative` drops (hence never maps) any CSV row
whose `min_length`/`max_length` is unparsable or non-positive. -/
theorem replacer_skips_unapplicable (L : List (List Char × (Int × Int))) (m : CountryMatch) :
    (lookupD L m.code = none → replacer L m = wholeMatch m) ∧
    (∀ amin amax : Int, lookupD L m.code = some (amin, amax) → amin ≤ 0 →
      replacer L m = wholeMatch m) ∧
    (pyParseDigits? m.minTok = none → replacer L m = wholeMatch m) ∧
    (pyParseDigits? m.maxTok = none → replacer L m = wholeMatch m) ∧
    (∀ (rows : List CsvRow) (r : CsvRow),
      (pyInt? r.min_length = none ∨ (∃ v, pyInt? r.min_length = some v ∧ v ≤ 0) ∨
        pyInt? r.max_length = none ∨ (∃ v, pyInt? r.max_length = some v ∧ v ≤ 0)) →
      load_authoritative (rows ++ [r]) = load_authoritative rows) := by
  refine ⟨?_, ?_, ?_, ?_, ?_⟩
  · intro h; simp only [replacer, h]
  · intro amin amax h hle; simp only [replacer, h, if_pos hle]
  · intro h
    rcases hL : lookupD L m.code with _ | ⟨amin, amax⟩
    · simp only [replacer, hL]
    · by_cases hle : amin ≤ 0
      · simp only [replacer, hL, if_pos hle]
      · simp only [replacer, hL, if_neg hle, h]
  · intro h
    rcases hL : lookupD L m.code with _ | ⟨amin, amax⟩
    · simp only [replacer, hL]
    · by_cases hle : amin ≤ 0
      · simp only [replacer, hL, if_pos hle]
      · rcases hm : pyParseDigits? m.minTok with _ | cmin
        · simp only [replacer, hL, if_neg hle, hm]
        · simp only [replacer, hL, if_neg hle, hm, h]
  · intro rows r hbad
    unfold load_authoritative
    rw [List.foldl_append]
    simp only [List.foldl_cons, List.foldl_nil]
    rcases hmn : pyInt? r.min_length with _ | mn <;>
      rcases hmx : pyInt? r.max_length with _ | mx
    · simp only [hmn, hmx]
    · simp only [hmn, hmx]
    · simp only [hmn, hmx]
    · have hz : mn ≤ 0 ∨ mx ≤ 0 := by
        rcases hbad with h | ⟨v, hv, hv0⟩ | h | ⟨v, hv, hv0⟩
        · rw [hmn] at h; cases h
        · rw [hmn] at hv; injection hv with hv; omega
        · rw [hmx] at h; cases h
        · rw [hmx] at hv; injection hv with hv; omega
      simp only [hmn, hmx, if_pos hz]

theorem replacer_skips_unapplicable_witness :
    (lookupD ([] : List (List Char × (Int × Int))) "ZZ".data = none ∧
      (replacer ([] : List (List Char × (Int × Int)))
          ⟨"g".data, "ZZ".data, "9".data, "s".data, "9".data⟩ =
        wholeMatch ⟨"g".data, "ZZ".data, "9".data, "s".data, "9".data⟩)) ∧
    (pyInt? "0".data = some 0 ∧
      load_authoritative ([] ++ [⟨"FR".data, "0".data, "9".data⟩]) =
        load_authoritative []) :=
  ⟨⟨by decide,
    (replacer_skips_unapplicable ([] : List (List Char × (Int × Int)))
        ⟨"g".data, "ZZ".data, "9".data, "s".data, "9".data⟩).1 (by decide)⟩,
   ⟨by decide,
    (replacer_skips_unapplicable ([] : List (List Char × (Int × Int)))
        ⟨"g".data, "ZZ".data, "9".data, "s".data, "9".data⟩).2.2.2.2
      [] ⟨"FR".data, "0".data, "9".data⟩
      (Or.inr (Or.inl ⟨0, by decide, by omega⟩))⟩⟩

/-- C10: every pair stored by `load_authoritative` has `min_length ≥ 1` and
`max_length ≥ 1`, so with such a map the replacer's non-positive-minimum guard
can never fire and the maximum guard always selects the authoritative maximum. -/
theorem load_authoritative_entries_positive (rows : List CsvRow) (c : List Char)
    (mn mx : Int) (h : lookupD (load_authoritative rows) c = some (mn, mx)) :
    (1 ≤ mn ∧ 1 ≤ mx) ∧ ¬ mn ≤ 0 ∧ ∀ cmax : Int, mergeMax mx cmax = mx := by
  have hmem := load_authoritative_mem (lookupD_mem h)
  have hmm : 1 ≤ mn ∧ 1 ≤ mx := hmem
  refine ⟨hmm, by omega, ?_⟩
  intro cmax
  unfold mergeMax
  rw [if_pos (show (0 : Int) < mx by omega)]

theorem load_authoritative_entries_positive_witness :
    lookupD (load_authoritative [⟨"US".data, "7".data, "12".data⟩]) "US".data = some (7, 12) ∧
    ((1 ≤ (7 : Int) ∧ 1 ≤ (12 : Int)) ∧ ¬ (7 : Int) ≤ 0 ∧
      ∀ cmax : Int, mergeMax 12 cmax = 12) :=
  ⟨by decide,
    load_authoritative_entries_positive [⟨"US".data, "7".data, "12".data⟩] "US".data 7 12
      (by decide)⟩

/-! ## Dictionary and diff lemmas -/

theorem lookupD_eq_none {α : Type} {d : List (List Char × α)} {c : List Char}
    (h : c ∉ d.map Prod.fst) : lookupD d c = none := by
  induction d with
  | nil => rfl
  | cons kv ds ih =>
    obtain ⟨k, v⟩ := kv
    simp only [List.map_cons, List.mem_cons, not_or] at h
    have hne : ¬ (k = c) := fun hk => h.1 hk.symm
    simp only [lookupD, if_neg hne]
    exact ih h.2

theorem map_fst_update {α : Type} (d : List (List Char × α)) (k : List Char) (v : α) :
    (d.map (fun kv => if kv.1 = k then (k, v) else kv)).map Prod.fst = d.map Prod.fst := by
  induction d with
  | nil => rfl
  | cons kv ds ih =>
    simp only [List.map_cons, List.cons.injEq]
    refine ⟨?_, ih⟩
    by_cases hk : kv.1 = k
    · rw [if_pos hk]; exact hk.symm
    · rw [if_neg hk]

theorem dictInsert_map_fst {α : Type} (d : List (List Char × α)) (k : List Char) (v : α) :
    (dictInsert d k v).map Prod.fst =
      if d.any (fun kv => decide (kv.1 = k)) then d.map Prod.fst
      else d.map Prod.fst ++ [k] := by
  unfold dictInsert
  by_cases hc : d.any (fun kv => decide (kv.1 = k))
  · rw [if_pos hc, if_pos hc, map_fst_update]
  · rw [if_neg hc, if_neg hc, List.map_append]
    rfl

theorem dictInsert_keys_nodup {α : Type} {d : List (List Char × α)} (k : List Char) (v : α)
    (hd : (d.map Prod.fst).Nodup) : ((dictInsert d k v).map Prod.fst).Nodup := by
  rw [dictInsert_map_fst]
  by_cases hc : d.any (fun kv => decide (kv.1 = k))
  · rw [if_pos hc]; exact hd
  · rw [if_neg hc]
    have hk : k ∉ d.map Prod.fst := by
      intro hmem
      obtain ⟨kv, hkv, hfst⟩ := List.mem_map.mp hmem
      exact hc (List.any_eq_true.mpr ⟨kv, hkv, by simp [hfst]⟩)
    rw [List.nodup_append]
    refine ⟨hd, List.nodup_singleton k, ?_⟩
    intro a ha hak
    rw [List.mem_singleton] at hak
    exact hk (hak ▸ ha)

theorem index_by_code_keys_nodup (rows : List CountryRow) :
    ((index_by_code rows).map Prod.fst).Nodup := by
  unfold index_by_code
  suffices H : ∀ d : List (List Char × CountryRow), (d.map Prod.fst).Nodup →
      ((rows.foldl (fun d r => dictInsert d r.code r) d).map Prod.fst).Nodup by
    exact H [] (by simp)
  induction rows with
  | nil => intro d hd; exact hd
  | cons r rows ih =>
    intro d hd
    exact ih _ (dictInsert_keys_nodup r.code r hd)

theorem diffFor_code {aidx : List (List Char × CountryRow)} {kv : List Char × CountryRow}
    {dr : DiffRow} (h : diffFor aidx kv = some dr) : dr.code = kv.1 := by
  rcases hA : lookupD aidx kv.1 with _ | a
  · simp only [diffFor, hA] at h
    injection h with h
    rw [← h]
  · simp only [diffFor, hA] at h
    by_cases hne : kv.2.dial_code ≠ a.dial_code ∨ kv.2.min_length ≠ a.min_length ∨
        kv.2.max_length ≠ a.max_length
    · rw [if_pos hne] at h
      injection h with h
      rw [← h]
    · rw [if_neg hne] at h
      cases h

theorem filterMap_diff_filter (aidx : List (List Char × CountryRow)) (c : List Char) :
    ∀ d : List (List Char × CountryRow), (d.map Prod.fst).Nodup →
    (d.filterMap (diffFor aidx)).filter (fun dr => decide (dr.code = c)) =
      (match lookupD d c with
       | some r => (diffFor aidx (c, r)).toList
       | none => []) := by
  intro d
  induction d with
  | nil => intro _; rfl
  | cons kv ds ih =>
    intro hnd
    obtain ⟨k, v⟩ := kv
    simp only [List.map_cons, List.nodup_cons] at hnd
    rcases hf : diffFor aidx (k, v) with _ | dr
    · rw [List.filterMap_cons_none hf]
      by_cases hk : k = c
      · subst hk
        rw [ih hnd.2, lookupD_eq_none hnd.1]
        simp [lookupD, hf]
      · simp only [lookupD, if_neg hk]
        exact ih hnd.2
    · rw [List.filterMap_cons_some hf]
      have hcode : dr.code = k := diffFor_code hf
      by_cases hk : k = c
      · subst hk
        rw [List.filter_cons_of_pos (by simp [hcode]), ih hnd.2, lookupD_eq_none hnd.1]
        simp [lookupD, hf]
      · rw [List.filter_cons_of_neg (by simp [hcode, hk]), ih hnd.2]
        simp only [lookupD, if_neg hk]

/-! ## Claims about the diff builder and the parser -/

/-- C8: per code of the current dataset: absent from the authoritative index
gives exactly one "Missing in authoritative" row with blank authoritative
columns; present and field-equal gives no row; present with any of the three
compared fields differing gives exactly one row with both sides' values;
codes absent from the current index never produce a row. -/
theorem build_diff_rows_per_code (cur auth : List CountryRow) (c : List Char) :
    (∀ r : CountryRow, lookupD (index_by_code cur) c = some r →
      lookupD (index_by_code auth) c = none →
      (build_diff_rows cur auth).filter (fun dr => decide (dr.code = c)) =
        [⟨c, r.name, [], r.dial_code, [], natToDec r.min_length, [],
          natToDec r.max_length, [], "Missing in authoritative".data⟩]) ∧
    (∀ r a : CountryRow, lookupD (index_by_code cur) c = some r →
      lookupD (index_by_code auth) c = some a →
      r.dial_code = a.dial_code → r.min_length = a.min_length →
      r.max_length = a.max_length →
      (build_diff_rows cur auth).filter (fun dr => decide (dr.code = c)) = []) ∧
    (∀ r a : CountryRow, lookupD (index_by_code cur) c = some r →
      lookupD (index_by_code auth) c = some a →
      (r.dial_code ≠ a.dial_code ∨ r.min_length ≠ a.min_length ∨
        r.max_length ≠ a.max_length) →
      (build_diff_rows cur auth).filter (fun dr => decide (dr.code = c)) =
        [⟨c, r.name, a.name, r.dial_code, a.dial_code, natToDec r.min_length,
          natToDec a.min_length, natToDec r.max_length, natToDec a.max_length, []⟩]) ∧
    (lookupD (index_by_code cur) c = none →
      (build_diff_rows cur auth).filter (fun dr => decide (dr.code = c)) = []) := by
  have hbase := filterMap_diff_filter (index_by_code auth) c (index_by_code cur)
    (index_by_code_keys_nodup cur)
  refine ⟨?_, ?_, ?_, ?_⟩
  · intro r hcur hauth
    unfold build_diff_rows
    rw [hbase, hcur]
    simp only [diffFor, hauth, Option.toList]
  · intro r a hcur hauth h1 h2 h3
    unfold build_diff_rows
    rw [hbase, hcur]
    have hno : ¬ (r.dial_code ≠ a.dial_code ∨ r.min_length ≠ a.min_length ∨
        r.max_length ≠ a.max_length) := by
      push_neg
      exact ⟨h1, h2, h3⟩
    simp only [diffFor, hauth, if_neg hno, Option.toList]
  · intro r a hcur hauth hne
    unfold build_diff_rows
    rw [hbase, hcur]
    simp only [diffFor, hauth, if_pos hne, Option.toList]
  · intro hcur
    unfold build_diff_rows
    rw [hbase, hcur]

theorem build_diff_rows_per_code_witness :
    (lookupD (index_by_code [⟨"ZZ".data, "Zed".data, "1".data, 2, 3⟩]) "ZZ".data =
        some ⟨"ZZ".data, "Zed".data, "1".data, 2, 3⟩ ∧
      lookupD (index_by_code ([] : List CountryRow)) "ZZ".data = none) ∧
    (build_diff_rows [⟨"ZZ".data, "Zed".data, "1".data, 2, 3⟩] []).filter
        (fun dr => decide (dr.code = "ZZ".data)) =
      [⟨"ZZ".data, "Zed".data, [], "1".data, [], natToDec 2, [],
        natToDec 3, [], "Missing in authoritative".data⟩] :=
  ⟨⟨by decide, by decide⟩,
    (build_diff_rows_per_code [⟨"ZZ".data, "Zed".data, "1".data, 2, 3⟩] [] "ZZ".data).1
      ⟨"ZZ".data, "Zed".data, "1".data, 2, 3⟩ (by decide) (by decide)⟩

/-- C6: `parse_countries_dart` raises exactly when zero entries match, and a
normal return carries the full list of matched records (in particular it is
never empty or partial). -/
theorem parse_countries_error_iff_no_match (text : List Char) :
    ((∃ msg, parse_countries_dart text = Except.error msg) ↔ countryEntries text = []) ∧
    (∀ rs, parse_countries_dart text = Except.ok rs →
      rs = (countryEntries text).map toRow ∧ rs ≠ []) := by
  unfold parse_countries_dart
  by_cases h : (countryEntries text).map toRow = []
  · simp only [if_pos h]
    refine ⟨⟨fun _ => List.map_eq_nil_iff.mp h, fun _ => ⟨_, rfl⟩⟩, ?_⟩
    intro rs hrs
    cases hrs
  · simp only [if_neg h]
    refine ⟨⟨?_, ?_⟩, ?_⟩
    · rintro ⟨msg, hmsg⟩
      cases hmsg
    · intro hnil
      exact absurd (by rw [hnil]; rfl) h
    · intro rs hrs
      injection hrs with hrs
      exact ⟨hrs.symm, fun hnil => h (hrs ▸ hnil)⟩

theorem parse_countries_error_iff_no_match_witness :
    countryEntries "no entry text".data = [] ∧
    (∃ msg, parse_countries_dart "no entry text".data = Except.error msg) :=
  ⟨by rfl, (parse_countries_error_iff_no_match "no entry text".data).1.mpr (by rfl)⟩

/-! ## Scanner primitive lemmas -/

theorem matchLit_append_self (l r : List Char) : matchLit l (l ++ r) = some r := by
  induction l with
  | nil => rfl
  | cons c cs ih => simp [matchLit, ih]

theorem matchLit_cons_ne {lh c : Char} (lt r : List Char) (h : c ≠ lh) :
    matchLit (lh :: lt) (c :: r) = none := by
  simp [matchLit, h]

theorem matchLit_some_iff {l s r : List Char} : matchLit l s = some r ↔ s = l ++ r := by
  induction l generalizing s with
  | nil =>
    simp [matchLit]
  | cons c cs ih =>
    cases s with
    | nil => simp [matchLit]
    | cons a as =>
      by_cases hac : a = c
      · subst hac
        simp [matchLit, ih]
      · simp [matchLit, hac, Ne.symm hac]

theorem takeWhile_append_all {p : Char → Bool} {a : List Char} (b : List Char)
    (h : a.all p) : (a ++ b).takeWhile p = a ++ b.takeWhile p := by
  induction a with
  | nil => rfl
  | cons c cs ih =>
    simp only [List.all_cons, Bool.and_eq_true] at h
    simp [List.takeWhile_cons, h.1, ih h.2]

theorem dropWhile_append_all {p : Char → Bool} {a : List Char} (b : List Char)
    (h : a.all p) : (a ++ b).dropWhile p = b.dropWhile p := by
  induction a with
  | nil => rfl
  | cons c cs ih =>
    simp only [List.all_cons, Bool.and_eq_true] at h
    simp [List.dropWhile_cons, h.1, ih h.2]

theorem takeWhile_cons_neg {p : Char → Bool} {c : Char} (r : List Char) (h : p c = false) :
    (c :: r).takeWhile p = [] := by
  simp [List.takeWhile_cons, h]

theorem dropWhile_cons_neg {p : Char → Bool} {c : Char} (r : List Char) (h : p c = false) :
    (c :: r).dropWhile p = c :: r := by
  simp [List.dropWhile_cons, h]

theorem takeWhile_append_stop {p : Char → Bool} {a : List Char} {c : Char} {b : List Char}
    (ha : a.all p) (hc : p c = false) : (a ++ c :: b).takeWhile p = a := by
  rw [takeWhile_append_all _ ha, takeWhile_cons_neg _ hc, List.append_nil]

theorem dropWhile_append_stop {p : Char → Bool} {a : List Char} {c : Char} {b : List Char}
    (ha : a.all p) (hc : p c = false) : (a ++ c :: b).dropWhile p = c :: b := by
  rw [dropWhile_append_all _ ha, dropWhile_cons_neg _ hc]

theorem not_space_of_digit {c : Char} (h : isDigitC c = true) : isSpaceC c = false := by
  cases hs : isSpaceC c
  · rfl
  · exfalso
    unfold isSpaceC at hs
    simp only [Bool.or_eq_true, decide_eq_true_eq] at hs
    rcases hs with ((((h1 | h1) | h1) | h1) | h1) | h1 <;> subst h1 <;>
      exact absurd h (by decide)

theorem head_digits_not_space {d : List Char} (hne : d ≠ []) (hd : d.all isDigitC)
    (X : List Char) : (d ++ X).dropWhile isSpaceC = d ++ X := by
  cases d with
  | nil => cases hne rfl
  | cons c cs =>
    simp only [List.all_cons, Bool.and_eq_true] at hd
    simp [List.dropWhile_cons, not_space_of_digit hd.1]

/-! ## Direct evaluation of the entry scanner on well-formed rendered entries -/

theorem tryMinMax2_evalR (d1 d2 r : List Char) (h1 : d1 ≠ []) (h1d : d1.all isDigitC)
    (h2 : d2 ≠ []) (h2d : d2.all isDigitC) :
    tryMinMax2 ('m':: 'i':: 'n':: 'L':: 'e':: 'n':: 'g':: 't':: 'h':: ':':: ' '::
      (d1 ++ ',':: ' ':: 'm':: 'a':: 'x':: 'L':: 'e':: 'n':: 'g':: 't':: 'h':: ':':: ' '::(d2 ++ ')'::r))) =
      some ((d1, d2), r) := by
  have hml : ∀ Z : List Char, matchLit "minLength:".data
      ('m':: 'i':: 'n':: 'L':: 'e':: 'n':: 'g':: 't':: 'h':: ':'::Z) = some Z :=
    fun Z => matchLit_append_self _ Z
  have hml2 : ∀ Z : List Char, matchLit "maxLength:".data
      ('m':: 'a':: 'x':: 'L':: 'e':: 'n':: 'g':: 't':: 'h':: ':'::Z) = some Z :=
    fun Z => matchLit_append_self _ Z
  have hcomma : isDigitC ',' = false := by decide
  have hrp : isDigitC ')' = false := by decide
  have e1 : isSpaceC ' ' = true := by decide
  have e2 : isSpaceC 'm' = false := by decide
  have e3 : isSpaceC ',' = false := by decide
  have e4 : isSpaceC ')' = false := by decide
  simp only [tryMinMax2, hml, hml2, List.dropWhile_cons, e1, e2, e3, e4, if_true, if_false,
    Bool.false_eq_true, ite_false, ite_true,
    head_digits_not_space h1 h1d, head_digits_not_space h2 h2d,
    takeWhile_append_stop h1d hcomma, dropWhile_append_stop h1d hcomma,
    takeWhile_append_stop h2d hrp, dropWhile_append_stop h2d hrp]
  simp [h1, h2]

theorem tryDial_evalR (d r : List Char) (hne : d ≠ []) (hdig : d.all isDigitC) :
    tryDial ('d':: 'i':: 'a':: 'l':: 'C':: 'o':: 'd':: 'e':: ':':: ' ':: '"'::(d ++ '"':: ','::r)) =
      some (d, r) := by
  have hml : ∀ Z : List Char, matchLit "dialCode:".data
      ('d':: 'i':: 'a':: 'l':: 'C':: 'o':: 'd':: 'e':: ':'::Z) = some Z :=
    fun Z => matchLit_append_self _ Z
  have hq : isDigitC '"' = false := by decide
  have e1 : isSpaceC ' ' = true := by decide
  have e2 : isSpaceC '"' = false := by decide
  have e3 : isSpaceC ',' = false := by decide
  simp only [tryDial, hml, List.dropWhile_cons, e1, e2, e3, if_true, if_false,
    Bool.false_eq_true, ite_false, ite_true,
    takeWhile_append_stop hdig hq, dropWhile_append_stop hdig hq]
  simp [hne]

theorem tryCode_evalR (c1 c2 : Char) (r : List Char) (h1 : isUpperC c1 = true)
    (h2 : isUpperC c2 = true) :
    tryCode ('c':: 'o':: 'd':: 'e':: ':':: ' ':: '"'::c1::c2:: '"':: ','::r) =
      some ("code:".data ++ [' '] ++ '"' :: c1 :: c2 :: '"' :: ([] ++ [',']), [c1, c2], r) := by
  have hml : ∀ Z : List Char, matchLit "code:".data ('c':: 'o':: 'd':: 'e':: ':'::Z) = some Z :=
    fun Z => matchLit_append_self _ Z
  have e1 : isSpaceC ' ' = true := by decide
  have e2 : isSpaceC '"' = false := by decide
  have e3 : isSpaceC ',' = false := by decide
  simp only [tryCode, hml, List.dropWhile_cons, List.takeWhile_cons, e1, e2, e3,
    if_true, if_false, Bool.false_eq_true, ite_false, ite_true]
  simp [h1, h2]

theorem tryMinMax2_none_head {c : Char} (cs : List Char) (h : c ≠ 'm') :
    tryMinMax2 (c :: cs) = none := by
  have hd : "minLength:".data = 'm' :: "inLength:".data := rfl
  simp only [tryMinMax2, hd, matchLit_cons_ne _ _ h]

theorem tryDial_none_head {c : Char} (cs : List Char) (h : c ≠ 'd') :
    tryDial (c :: cs) = none := by
  have hd : "dialCode:".data = 'd' :: "ialCode:".data := rfl
  simp only [tryDial, hd, matchLit_cons_ne _ _ h]

theorem tryCode_none_head {c : Char} (cs : List Char) (h : c ≠ 'c') :
    tryCode (c :: cs) = none := by
  have hd : "code:".data = 'c' :: "ode:".data := rfl
  simp only [tryCode, hd, matchLit_cons_ne _ _ h]

theorem tryEntryAt_none_head {c : Char} (cs : List Char) (h : c ≠ 'C') :
    tryEntryAt (c :: cs) = none := by
  have hd : "Country(".data = 'C' :: "ountry(".data := rfl
  simp only [tryEntryAt, hd, matchLit_cons_ne _ _ h]

theorem findCodeD_evalR (c1 c2 : Char) (dial minT maxT X : List Char)
    (h1 : isUpperC c1 = true) (h2 : isUpperC c2 = true)
    (hd1 : dial ≠ []) (hd2 : dial.all isDigitC)
    (hm1 : minT ≠ []) (hm2 : minT.all isDigitC)
    (hx1 : maxT ≠ []) (hx2 : maxT.all isDigitC) :
    findCodeD (' ':: 'c':: 'o':: 'd':: 'e':: ':':: ' ':: '"'::c1::c2:: '"':: ',':: ' '::
        'd':: 'i':: 'a':: 'l':: 'C':: 'o':: 'd':: 'e':: ':':: ' ':: '"'::
        (dial ++ '"':: ',':: ' ':: 'm':: 'i':: 'n':: 'L':: 'e':: 'n':: 'g':: 't':: 'h':: ':':: ' '::
          (minT ++ ',':: ' ':: 'm':: 'a':: 'x':: 'L':: 'e':: 'n':: 'g':: 't':: 'h':: ':':: ' '::
            (maxT ++ ')'::X)))) =
      some (([c1, c2], dial, (minT, maxT)), X) := by
  simp only [findCodeD, findDial, findMM2,
    tryCode_none_head _ (by decide : (' ' : Char) ≠ 'c'),
    tryDial_none_head _ (by decide : (' ' : Char) ≠ 'd'),
    tryMinMax2_none_head _ (by decide : (' ' : Char) ≠ 'm'),
    tryCode_evalR c1 c2 _ h1 h2,
    tryDial_evalR dial _ hd1 hd2,
    tryMinMax2_evalR minT maxT _ hm1 hm2 hx1 hx2]

theorem splitEntry1 (X : List Char) : "Country(name: \"".data ++ X =
    'C':: 'o':: 'u':: 'n':: 't':: 'r':: 'y':: '(':: 'n':: 'a':: 'm':: 'e':: ':':: ' ':: '"'::X := rfl

theorem splitEntry2 (X : List Char) : "\", code: \"".data ++ X =
    '"':: ',':: ' ':: 'c':: 'o':: 'd':: 'e':: ':':: ' ':: '"'::X := rfl

theorem splitEntry3 (X : List Char) : "\", dialCode: \"".data ++ X =
    '"':: ',':: ' ':: 'd':: 'i':: 'a':: 'l':: 'C':: 'o':: 'd':: 'e':: ':':: ' ':: '"'::X := rfl

theorem splitEntry4 (X : List Char) : "\", minLength: ".data ++ X =
    '"':: ',':: ' ':: 'm':: 'i':: 'n':: 'L':: 'e':: 'n':: 'g':: 't':: 'h':: ':':: ' '::X := rfl

theorem splitEntry5 (X : List Char) : ", maxLength: ".data ++ X =
    ',':: ' ':: 'm':: 'a':: 'x':: 'L':: 'e':: 'n':: 'g':: 't':: 'h':: ':':: ' '::X := rfl

theorem splitEntry6 (X : List Char) : "),\n".data ++ X = ')':: ',':: '\n'::X := rfl

theorem tryEntryAt_render (e : EntrySpec) (hwf : entryWF e) (X : List Char) :
    tryEntryAt (renderEntry e ++ X) =
      some (⟨e.name, [e.c1, e.c2], e.dial, e.minT, e.maxT⟩, ',' :: '\n' :: X) := by
  obtain ⟨hn1, hn2, _hn3, hu1, hu2, hd1, hd2, hm1, hm2, hx1, hx2⟩ := hwf
  have hmlC : ∀ Z : List Char, matchLit "Country(".data
      ('C':: 'o':: 'u':: 'n':: 't':: 'r':: 'y':: '('::Z) = some Z := fun Z => matchLit_append_self _ Z
  have hmlN : ∀ Z : List Char, matchLit "name:".data ('n':: 'a':: 'm':: 'e':: ':'::Z) = some Z :=
    fun Z => matchLit_append_self _ Z
  have e1 : isSpaceC ' ' = true := by decide
  have e2 : isSpaceC 'n' = false := by decide
  have e3 : isSpaceC '"' = false := by decide
  have e4 : isSpaceC ',' = false := by decide
  have hq : notQuote '"' = false := by decide
  simp only [renderEntry, List.append_assoc, List.cons_append, List.nil_append,
    splitEntry1, splitEntry2, splitEntry3, splitEntry4, splitEntry5, splitEntry6]
  simp only [tryEntryAt, hmlC, hmlN, List.dropWhile_cons, e1, e2, e3, e4,
    if_true, if_false, Bool.false_eq_true, ite_false, ite_true,
    takeWhile_append_stop hn2 hq, dropWhile_append_stop hn2 hq,
    findCodeD_evalR e.c1 e.c2 e.dial e.minT e.maxT (',':: '\n'::X)
      hu1 hu2 hd1 hd2 hm1 hm2 hx1 hx2]
  simp [hn1]

theorem findEntry_render (e : EntrySpec) (hwf : entryWF e) (X : List Char) :
    findEntry (renderEntry e ++ X) =
      some (⟨e.name, [e.c1, e.c2], e.dial, e.minT, e.maxT⟩, ',' :: '\n' :: X) := by
  have h := tryEntryAt_render e hwf X
  rcases hL : renderEntry e ++ X with _ | ⟨c, cs⟩
  · rw [hL] at h
    cases h
  · rw [hL] at h
    simp [findEntry, h]

theorem findEntry_skip_sep (x : List Char) :
    findEntry (',' :: '\n' :: x) = findEntry x := by
  simp [findEntry, tryEntryAt_none_head _ (by decide : (',' : Char) ≠ 'C'),
    tryEntryAt_none_head _ (by decide : ('\n' : Char) ≠ 'C')]

theorem entriesAux_nil (fuel : Nat) : entriesAux fuel [] = [] := by
  cases fuel <;> rfl

theorem entriesAux_congr {s₁ s₂ : List Char} (h : findEntry s₁ = findEntry s₂) (fuel : Nat) :
    entriesAux fuel s₁ = entriesAux fuel s₂ := by
  cases fuel with
  | zero => rfl
  | succ f => simp only [entriesAux, h]

theorem entriesAux_render (es : List EntrySpec) (hwf : ∀ e ∈ es, entryWF e)
    (fuel : Nat) (hf : es.length ≤ fuel) :
    entriesAux fuel (renderFile es) =
      es.map (fun e => EntryMatch.mk e.name [e.c1, e.c2] e.dial e.minT e.maxT) := by
  induction es generalizing fuel with
  | nil => simp [renderFile, entriesAux_nil]
  | cons e es ih =>
    cases fuel with
    | zero => simp at hf
    | succ f =>
      have hren : renderFile (e :: es) = renderEntry e ++ renderFile es := by
        simp [renderFile]
      rw [hren]
      have hfe := findEntry_render e (hwf e (List.mem_cons_self e es)) (renderFile es)
      simp only [entriesAux, hfe]
      rw [entriesAux_congr (findEntry_skip_sep (renderFile es)) f,
        ih (fun e' he' => hwf e' (List.mem_cons_of_mem e he')) f (by simpa using Nat.le_of_succ_le_succ (by simpa using hf))]
      simp

theorem renderFile_length (es : List EntrySpec) : es.length ≤ (renderFile es).length := by
  induction es with
  | nil => simp [renderFile]
  | cons e es ih =>
    have : renderFile (e :: es) = renderEntry e ++ renderFile es := by simp [renderFile]
    rw [this, List.length_append]
    have h1 : 1 ≤ (renderEntry e).length := by
      simp [renderEntry]
    simp only [List.length_cons]
    omega

theorem countryEntries_render (es : List EntrySpec) (hwf : ∀ e ∈ es, entryWF e) :
    countryEntries (renderFile es) =
      es.map (fun e => EntryMatch.mk e.name [e.c1, e.c2] e.dial e.minT e.maxT) := by
  unfold countryEntries
  exact entriesAux_render es hwf _ (le_trans (renderFile_length es) (Nat.le_succ _))

theorem not_space_of_upper {c : Char} (h : isUpperC c = true) : isSpaceC c = false := by
  cases hs : isSpaceC c
  · rfl
  · exfalso
    unfold isSpaceC at hs
    simp only [Bool.or_eq_true, decide_eq_true_eq] at hs
    rcases hs with ((((h1 | h1) | h1) | h1) | h1) | h1 <;> subst h1 <;>
      exact absurd h (by decide)

theorem dropWhile_eq_self_of_all {p : Char → Bool} {l : List Char}
    (h : ∀ c ∈ l, p c = false) : l.dropWhile p = l := by
  cases l with
  | nil => rfl
  | cons c cs => exact dropWhile_cons_neg _ (h c (List.mem_cons_self c cs))

theorem stripWs_eq_self {l : List Char} (h : ∀ c ∈ l, isSpaceC c = false) :
    stripWs l = l := by
  unfold stripWs
  rw [dropWhile_eq_self_of_all h,
    dropWhile_eq_self_of_all (fun c hc => h c (List.mem_reverse.mp hc)),
    List.reverse_reverse]

theorem toRow_em (e : EntrySpec) (hwf : entryWF e) :
    toRow (EntryMatch.mk e.name [e.c1, e.c2] e.dial e.minT e.maxT) = specRow e := by
  obtain ⟨hn1, hn2, hn3, hu1, hu2, hd1, hd2, hm1, hm2, hx1, hx2⟩ := hwf
  unfold toRow specRow
  simp only
  rw [hn3]
  rw [stripWs_eq_self (fun c hc => by
    simp only [List.mem_cons, List.not_mem_nil, or_false] at hc
    rcases hc with hc | hc <;> subst hc
    · exact not_space_of_upper hu1
    · exact not_space_of_upper hu2)]
  rw [stripWs_eq_self (fun c hc =>
    not_space_of_digit (by
      rw [List.all_eq_true] at hd2
      exact hd2 c hc))]

/-- C7: a file of `N` well-formed entries parses to exactly `N` records, in
source order, each field the literal source text (with the integer fields
parsed from their decimal digits). -/
theorem parse_countries_well_formed (es : List EntrySpec) (hne : es ≠ [])
    (hwf : ∀ e ∈ es, entryWF e) :
    parse_countries_dart (renderFile es) = Except.ok (es.map specRow) ∧
    (es.map specRow).length = es.length := by
  refine ⟨?_, List.length_map es specRow⟩
  have hent := countryEntries_render es hwf
  unfold parse_countries_dart
  rw [hent]
  have hrows : (es.map (fun e => EntryMatch.mk e.name [e.c1, e.c2] e.dial e.minT e.maxT)).map toRow
      = es.map specRow := by
    rw [List.map_map]
    exact List.map_congr_left (fun e he => toRow_em e (hwf e he))
  rw [hrows]
  rw [if_neg (by simp [hne] : ¬ es.map specRow = [])]

theorem parse_countries_well_formed_witness :
    (([⟨"Afg".data, 'A', 'F', "93".data, "9".data, "10".data⟩,
       ⟨"Alb".data, 'A', 'L', "355".data, "3".data, "9".data⟩] : List EntrySpec) ≠ [] ∧
      ∀ e ∈ ([⟨"Afg".data, 'A', 'F', "93".data, "9".data, "10".data⟩,
              ⟨"Alb".data, 'A', 'L', "355".data, "3".data, "9".data⟩] : List EntrySpec),
        entryWF e) ∧
    (parse_countries_dart (renderFile
        [⟨"Afg".data, 'A', 'F', "93".data, "9".data, "10".data⟩,
         ⟨"Alb".data, 'A', 'L', "355".data, "3".data, "9".data⟩]) =
      Except.ok ([⟨"Afg".data, 'A', 'F', "93".data, "9".data, "10".data⟩,
                  ⟨"Alb".data, 'A', 'L', "355".data, "3".data, "9".data⟩].map specRow) ∧
     (([⟨"Afg".data, 'A', 'F', "93".data, "9".data, "10".data⟩,
        ⟨"Alb".data, 'A', 'L', "355".data, "3".data, "9".data⟩] : List EntrySpec).map specRow).length =
       ([⟨"Afg".data, 'A', 'F', "93".data, "9".data, "10".data⟩,
         ⟨"Alb".data, 'A', 'L', "355".data, "3".data, "9".data⟩] : List EntrySpec).length) :=
  ⟨⟨by decide, by
      intro e he
      simp only [List.mem_cons, List.not_mem_nil, or_false] at he
      rcases he with he | he <;> subst he <;> unfold entryWF <;> decide⟩,
    parse_countries_well_formed _ (by decide) (by
      intro e he
      simp only [List.mem_cons, List.not_mem_nil, or_false] at he
      rcases he with he | he <;> subst he <;> unfold entryWF <;> decide)⟩

/-! ## Decimal rendering lemmas -/

theorem digitChar_isDigit {n : Nat} (h : n < 10) : isDigitC (digitChar n) = true := by
  interval_cases n <;> decide

theorem digitChar_toNat {n : Nat} (h : n < 10) : (digitChar n).toNat = 48 + n := by
  interval_cases n <;> decide

theorem natToDecAux_ne_nil (fuel n : Nat) (acc : List Char) :
    natToDecAux fuel n acc ≠ [] := by
  induction fuel generalizing n acc with
  | zero => simp [natToDecAux]
  | succ f ih =>
    unfold natToDecAux
    by_cases h : n < 10
    · simp [h]
    · simp only [if_neg h]
      exact ih _ _

theorem natToDecAux_all_digit (fuel : Nat) :
    ∀ n acc, n ≤ fuel → acc.all isDigitC = true →
    (natToDecAux fuel n acc).all isDigitC = true := by
  induction fuel with
  | zero =>
    intro n acc hn hacc
    have : n = 0 := by omega
    subst this
    simp [natToDecAux, hacc, digitChar_isDigit (by omega : (0:Nat) < 10)]
  | succ f ih =>
    intro n acc hn hacc
    unfold natToDecAux
    by_cases h : n < 10
    · simp [h, hacc, digitChar_isDigit h]
    · simp only [if_neg h]
      refine ih _ _ ?_ ?_
      · have h10 : 10 ≤ n := by omega
        have := Nat.div_le_self n 10
        have h2 : n / 10 < n := Nat.div_lt_self (by omega) (by omega)
        omega
      · simp [hacc, digitChar_isDigit (Nat.mod_lt n (by omega))]

theorem natToDec_tokOK (n : Nat) : natToDec n ≠ [] ∧ (natToDec n).all isDigitC = true :=
  ⟨natToDecAux_ne_nil n n [], natToDecAux_all_digit n n [] (le_refl n) rfl⟩

theorem pyStr_tokOK {i : Int} (h : 0 ≤ i) : pyStr i ≠ [] ∧ (pyStr i).all isDigitC = true := by
  unfold pyStr
  rw [if_neg (by omega : ¬ i < 0)]
  exact natToDec_tokOK i.toNat

theorem natToDecAux_val (fuel : Nat) :
    ∀ n acc, n ≤ fuel →
    digitsVal (natToDecAux fuel n acc) =
      acc.foldl (fun a c => 10 * a + (c.toNat - 48)) n := by
  induction fuel with
  | zero =>
    intro n acc hn
    have : n = 0 := by omega
    subst this
    simp [natToDecAux, digitsVal, digitChar_toNat (by omega : (0:Nat) < 10)]
  | succ f ih =>
    intro n acc hn
    unfold natToDecAux
    by_cases h : n < 10
    · rw [if_pos h]
      simp only [digitsVal, List.foldl_cons]
      rw [digitChar_toNat h]
      congr 1
      omega
    · simp only [if_neg h]
      rw [show digitsVal (natToDecAux f (n / 10) (digitChar (n % 10) :: acc)) =
          (digitChar (n % 10) :: acc).foldl (fun a c => 10 * a + (c.toNat - 48)) (n / 10) from
        ih _ _ (by
          have h2 : n / 10 < n := Nat.div_lt_self (by omega) (by omega)
          omega)]
      simp only [List.foldl_cons]
      rw [digitChar_toNat (Nat.mod_lt n (by omega))]
      have : 10 * (n / 10) + (48 + n % 10 - 48) = n := by
        have := Nat.div_add_mod n 10
        omega
      rw [this]

theorem natToDec_val (n : Nat) : digitsVal (natToDec n) = n :=
  natToDecAux_val n n [] (le_refl n)

theorem pyStr_roundtrip {i : Int} (h : 0 ≤ i) : pyParseDigits? (pyStr i) = some i.toNat := by
  obtain ⟨h1, h2⟩ := pyStr_tokOK h
  unfold pyParseDigits?
  rw [if_pos ⟨h1, h2⟩]
  unfold pyStr
  rw [if_neg (by omega : ¬ i < 0), natToDec_val]

/-! ## Soundness of the `country_re` scanner -/

theorem takeWhile_all (p : Char → Bool) (l : List Char) : (l.takeWhile p).all p = true := by
  induction l with
  | nil => rfl
  | cons c cs ih =>
    rw [List.takeWhile_cons]
    by_cases h : p c
    · simp [h, ih]
    · simp [h]

theorem headNotDigit_dropWhile (l : List Char) :
    headNotDigit (l.dropWhile isDigitC) = true := by
  induction l with
  | nil => rfl
  | cons c cs ih =>
    rw [List.dropWhile_cons]
    by_cases h : isDigitC c
    · simp [h, ih]
    · simp [headNotDigit, h]

theorem tryMinMax_sound {s : List Char} {mm : MinMaxParts} {r : List Char}
    (h : tryMinMax s = some (mm, r)) :
    ∃ w1 w2 w3 w4,
      mm.lead = "minLength:".data ++ w1 ∧
      mm.sep = w2 ++ ',' :: (w3 ++ "maxLength:".data ++ w4) ∧
      w1.all isSpaceC = true ∧ w2.all isSpaceC = true ∧ w3.all isSpaceC = true ∧
      w4.all isSpaceC = true ∧ hasNl w3 = true ∧
      tokOK mm.minTok ∧ tokOK mm.maxTok ∧
      headNotDigit r = true ∧
      s = mm.lead ++ mm.minTok ++ mm.sep ++ mm.maxTok ++ r := by
  rcases hm1 : matchLit "minLength:".data s with _ | s1
  · simp only [tryMinMax, hm1] at h
    cases h
  · simp only [tryMinMax, hm1] at h
    by_cases hd1 : (s1.dropWhile isSpaceC).takeWhile isDigitC = []
    · rw [if_pos hd1] at h
      cases h
    · rw [if_neg hd1] at h
      rcases hs4 : ((s1.dropWhile isSpaceC).dropWhile isDigitC).dropWhile isSpaceC
        with _ | ⟨c, s5⟩
      · simp only [hs4] at h
        cases h
      · simp only [hs4] at h
        by_cases hc : c = ','
        · rw [if_pos hc] at h
          subst hc
          by_cases hnl : hasNl (s5.takeWhile isSpaceC)
          · rw [if_pos hnl] at h
            rcases hm2 : matchLit "maxLength:".data (s5.dropWhile isSpaceC) with _ | s7
            · simp only [hm2] at h
              cases h
            · simp only [hm2] at h
              by_cases hd2 : ((s7.dropWhile isSpaceC).takeWhile isDigitC) = []
              · rw [if_pos hd2] at h
                cases h
              · rw [if_neg hd2] at h
                injection h with h
                injection h with hmm hr
                subst hr
                refine ⟨s1.takeWhile isSpaceC,
                  ((s1.dropWhile isSpaceC).dropWhile isDigitC).takeWhile isSpaceC,
                  s5.takeWhile isSpaceC, s7.takeWhile isSpaceC,
                  ?_, ?_, takeWhile_all _ _, takeWhile_all _ _, takeWhile_all _ _,
                  takeWhile_all _ _, hnl, ?_, ?_, headNotDigit_dropWhile _, ?_⟩
                · rw [← hmm]
                · rw [← hmm]
                · rw [← hmm]
                  exact ⟨hd1, takeWhile_all _ _⟩
                · rw [← hmm]
                  exact ⟨hd2, takeWhile_all _ _⟩
                · rw [← hmm]
                  have e1 : s = "minLength:".data ++ s1 := matchLit_some_iff.mp hm1
                  have e2 : s1 = s1.takeWhile isSpaceC ++ s1.dropWhile isSpaceC :=
                    (List.takeWhile_append_dropWhile _ _).symm
                  have e3 : s1.dropWhile isSpaceC =
                      (s1.dropWhile isSpaceC).takeWhile isDigitC ++
                      (s1.dropWhile isSpaceC).dropWhile isDigitC :=
                    (List.takeWhile_append_dropWhile _ _).symm
                  have e4 : (s1.dropWhile isSpaceC).dropWhile isDigitC =
                      ((s1.dropWhile isSpaceC).dropWhile isDigitC).takeWhile isSpaceC ++
                      (',' :: s5) := by
                    conv_lhs => rw [← List.takeWhile_append_dropWhile isSpaceC
                      ((s1.dropWhile isSpaceC).dropWhile isDigitC)]
                    rw [hs4]
                  have e5 : s5 = s5.takeWhile isSpaceC ++ s5.dropWhile isSpaceC :=
                    (List.takeWhile_append_dropWhile _ _).symm
                  have e6 : s5.dropWhile isSpaceC = "maxLength:".data ++ s7 :=
                    matchLit_some_iff.mp hm2
                  have e7 : s7 = s7.takeWhile isSpaceC ++ s7.dropWhile isSpaceC :=
                    (List.takeWhile_append_dropWhile _ _).symm
                  have e8 : s7.dropWhile isSpaceC =
                      (s7.dropWhile isSpaceC).takeWhile isDigitC ++
                      (s7.dropWhile isSpaceC).dropWhile isDigitC :=
                    (List.takeWhile_append_dropWhile _ _).symm
                  rw [e1]
                  conv_lhs => rw [e2, e3, e4]
                  conv_lhs => rw [e5, e6]
                  conv_lhs => rw [e7, e8]
                  simp [List.append_assoc]
          · rw [if_neg hnl] at h
            cases h
        · rw [if_neg hc] at h
          cases h

theorem tryCode_sound {s cc cd r : List Char} (h : tryCode s = some (cc, cd, r)) :
    ∃ w1 c1 c2 w2,
      cc = "code:".data ++ w1 ++ '"' :: c1 :: c2 :: '"' :: (w2 ++ [',']) ∧
      cd = [c1, c2] ∧ isUpperC c1 = true ∧ isUpperC c2 = true ∧
      w1.all isSpaceC = true ∧ w2.all isSpaceC = true ∧
      s = cc ++ r := by
  rcases hm1 : matchLit "code:".data s with _ | s1
  · simp only [tryCode, hm1] at h
    cases h
  · simp only [tryCode, hm1] at h
    rcases hs2 : s1.dropWhile isSpaceC with _ | ⟨q1, _ | ⟨c1, _ | ⟨c2, _ | ⟨q2, s3⟩⟩⟩⟩ <;>
      simp only [hs2] at h
    · cases h
    · cases h
    · cases h
    · cases h
    by_cases hcond : q1 = '"' ∧ q2 = '"' ∧ isUpperC c1 ∧ isUpperC c2
    · rw [if_pos hcond] at h
      obtain ⟨hq1, hq2, hu1, hu2⟩ := hcond
      subst hq1; subst hq2
      rcases hs4 : s3.dropWhile isSpaceC with _ | ⟨c, s5⟩ <;> simp only [hs4] at h
      · cases h
      · by_cases hc : c = ','
        · rw [if_pos hc] at h
          subst hc
          injection h with h
          injection h with hcc h
          injection h with hcd hr
          refine ⟨s1.takeWhile isSpaceC, c1, c2, s3.takeWhile isSpaceC,
            hcc.symm, hcd.symm, hu1, hu2, takeWhile_all _ _, takeWhile_all _ _, ?_⟩
          have e1 : s = "code:".data ++ s1 := matchLit_some_iff.mp hm1
          have e2 : s1 = s1.takeWhile isSpaceC ++ ('"' :: c1 :: c2 :: '"' :: s3) := by
            conv_lhs => rw [← List.takeWhile_append_dropWhile isSpaceC s1]
            rw [hs2]
          have e3 : s3 = s3.takeWhile isSpaceC ++ (',' :: s5) := by
            conv_lhs => rw [← List.takeWhile_append_dropWhile isSpaceC s3]
            rw [hs4]
          rw [← hr, e1]
          conv_lhs => rw [e2, e3]
          rw [← hcc]
          simp [List.append_assoc]
        · rw [if_neg hc] at h
          cases h
    · rw [if_neg hcond] at h
      cases h

theorem findMinMax_sound {s sk : List Char} {mm : MinMaxParts} {r : List Char}
    (h : findMinMax s = some (sk, mm, r)) :
    s = sk ++ mmText mm ++ r ∧
    tryMinMax (mmText mm ++ r) = some (mm, r) ∧
    ∀ j < sk.length, tryMinMax (List.drop j s) = none := by
  induction s generalizing sk with
  | nil => cases h
  | cons c cs ih =>
    rcases ht : tryMinMax (c :: cs) with _ | ⟨p, r0⟩
    · simp only [findMinMax, ht] at h
      rcases hf : findMinMax cs with _ | ⟨⟨sk', p', r'⟩⟩
      · rw [hf] at h
        cases h
      · rw [hf] at h
        injection h with h
        injection h with hsk h
        injection h with hmm hr
        subst hmm
        subst hr
        subst hsk
        obtain ⟨e1, e2, e3⟩ := ih hf
        refine ⟨by simp [e1, List.append_assoc], e2, ?_⟩
        intro j hj
        cases j with
        | zero => exact ht
        | succ j' =>
          simp only [List.drop_succ_cons]
          exact e3 j' (by simpa using Nat.lt_of_succ_lt_succ hj)
    · simp only [findMinMax, ht] at h
      injection h with h
      injection h with hsk h
      injection h with hmm hr
      subst hmm
      subst hr
      subst hsk
      obtain ⟨w1, w2, w3, w4, _, _, _, _, _, _, _, _, _, _, heq⟩ := tryMinMax_sound ht
      have heq' : c :: cs = mmText p ++ r0 := by
        rw [heq]
        simp [mmText, List.append_assoc]
      refine ⟨by simpa using heq', by rw [← heq']; exact ht, ?_⟩
      intro j hj
      simp at hj

theorem findCodeMM_sound {s sk cc cd sk2 : List Char} {mm : MinMaxParts} {r : List Char}
    (h : findCodeMM s = some (sk, (cc, cd), sk2, mm, r)) :
    s = sk ++ cc ++ sk2 ++ mmText mm ++ r ∧
    tryCode (cc ++ (sk2 ++ mmText mm ++ r)) = some (cc, cd, sk2 ++ mmText mm ++ r) ∧
    findMinMax (sk2 ++ mmText mm ++ r) = some (sk2, mm, r) ∧
    (∀ j < sk.length, codeStepFail (List.drop j s)) := by
  induction s generalizing sk with
  | nil => cases h
  | cons c cs ih =>
    rcases htc : tryCode (c :: cs) with _ | ⟨⟨cc0, cd0, r0⟩⟩
    · simp only [findCodeMM, htc] at h
      rcases hrec : findCodeMM cs with _ | ⟨⟨sk', x', sk2', mm', rest'⟩⟩
      · rw [hrec] at h
        cases h
      · rw [hrec] at h
        simp only [Option.some.injEq, Prod.mk.injEq] at h
        obtain ⟨hsk, hx, hsk2, hmm, hr⟩ := h
        obtain ⟨x1, x2⟩ := x'
        subst hsk; subst hsk2; subst hmm; subst hr
        rw [show x1 = cc from congrArg Prod.fst hx,
          show x2 = cd from congrArg Prod.snd hx] at hrec
        obtain ⟨e1, e2, e3, e4⟩ := ih hrec
        refine ⟨by simp [e1, List.append_assoc], e2, e3, ?_⟩
        intro j hj
        cases j with
        | zero => exact Or.inl htc
        | succ j' =>
          simp only [List.drop_succ_cons]
          exact e4 j' (by simpa using Nat.lt_of_succ_lt_succ hj)
    · simp only [findCodeMM, htc] at h
      rcases hfm : findMinMax r0 with _ | ⟨⟨sk2', mm', rest'⟩⟩
      · rw [hfm] at h
        rcases hrec : findCodeMM cs with _ | ⟨⟨sk', x', sk2'', mm'', rest''⟩⟩
        · rw [hrec] at h
          cases h
        · rw [hrec] at h
          simp only [Option.some.injEq, Prod.mk.injEq] at h
          obtain ⟨hsk, hx, hsk2, hmm, hr⟩ := h
          obtain ⟨x1, x2⟩ := x'
          subst hsk; subst hsk2; subst hmm; subst hr
          rw [show x1 = cc from congrArg Prod.fst hx,
            show x2 = cd from congrArg Prod.snd hx] at hrec
          obtain ⟨e1, e2, e3, e4⟩ := ih hrec
          refine ⟨by simp [e1, List.append_assoc], e2, e3, ?_⟩
          intro j hj
          cases j with
          | zero => exact Or.inr ⟨cc0, cd0, r0, htc, hfm⟩
          | succ j' =>
            simp only [List.drop_succ_cons]
            exact e4 j' (by simpa using Nat.lt_of_succ_lt_succ hj)
      · rw [hfm] at h
        simp only [Option.some.injEq, Prod.mk.injEq] at h
        obtain ⟨hsk, hx, hsk2, hmm, hr⟩ := h
        subst hsk; subst hsk2; subst hmm; subst hr
        rw [hx.1, hx.2] at htc
        obtain ⟨_, _, _, _, _, _, _, _, _, _, eqc⟩ := tryCode_sound htc
        obtain ⟨f1, _, _⟩ := findMinMax_sound hfm
        refine ⟨?_, ?_, ?_, ?_⟩
        · rw [eqc, f1]
          simp [List.append_assoc]
        · rw [← f1, ← eqc]
          exact htc
        · rw [← f1]
          exact hfm
        · intro j hj
          simp at hj

theorem wholeMatch_mOf (g : CShape) (a b r : List Char) :
    wholeMatch (mOf g a b) ++ r = "Country(".data ++ innerText g a b r := by
  simp [wholeMatch, mOf, g1Of, innerText, List.append_assoc]

theorem tryCountryAt_sound {s : List Char} {m : CountryMatch} {r : List Char}
    (h : tryCountryAt s = some (m, r)) :
    ∃ g a b, m = mOf g a b ∧ shapeWF g ∧ tokOK a ∧ tokOK b ∧ headNotDigit r = true ∧
      s = "Country(".data ++ innerText g a b r ∧ minimality g a b r := by
  rcases hm1 : matchLit "Country(".data s with _ | s1
  · simp only [tryCountryAt, hm1] at h
    cases h
  · simp only [tryCountryAt, hm1] at h
    rcases hf : findCodeMM s1 with _ | ⟨⟨sk, ⟨cc, cd⟩, sk2, mm, rest⟩⟩
    · rw [hf] at h
      cases h
    · rw [hf] at h
      simp only [Option.some.injEq, Prod.mk.injEq] at h
      obtain ⟨hm, hr⟩ := h
      subst hr
      obtain ⟨e1, e2, e3, e4⟩ := findCodeMM_sound hf
      obtain ⟨w1, c1, c2, w2c, hcc, hcd, hu1, hu2, hw1, hw2c, _⟩ := tryCode_sound e2
      obtain ⟨wl, wsep2, wsep3, wsep4, hlead, hsep, hwl, hws2, hws3, hws4, hnl,
        htok1, htok2, hhead, _⟩ := tryMinMax_sound (findMinMax_sound e3).2.1
      have e0 : s = "Country(".data ++ s1 := matchLit_some_iff.mp hm1
      refine ⟨⟨sk, w1, c1, c2, w2c, sk2, wl, wsep2, wsep3, wsep4⟩, mm.minTok, mm.maxTok,
        ?_, ⟨hu1, hu2, hw1, hw2c, hwl, hws2, hws3, hws4, hnl⟩, htok1, htok2, hhead, ?_, ?_, ?_⟩
      · rw [← hm]
        simp [mOf, g1Of, ccOf, sepOf, hcc, hcd, hlead, hsep, List.append_assoc]
      · rw [e0, e1]
        simp [innerText, ccOf, sepOf, mmText, hcc, hsep, hlead, List.append_assoc]
      · intro j hj
        have hstep := e4 j hj
        have harg : s1 = innerText ⟨sk, w1, c1, c2, w2c, sk2, wl, wsep2, wsep3, wsep4⟩
            mm.minTok mm.maxTok rest := by
          rw [e1]
          simp [innerText, ccOf, sepOf, mmText, hcc, hsep, hlead, List.append_assoc]
        rw [harg] at hstep
        exact hstep
      · intro j hj
        have hstep := (findMinMax_sound e3).2.2 j hj
        have harg : sk2 ++ mmText mm ++ rest =
            sk2 ++ "minLength:".data ++ wl ++ mm.minTok ++
              sepOf ⟨sk, w1, c1, c2, w2c, sk2, wl, wsep2, wsep3, wsep4⟩ ++ mm.maxTok ++ rest := by
          simp [mmText, sepOf, hlead, hsep, List.append_assoc]
        rw [harg] at hstep
        exact hstep

theorem findCountry_sound {s p : List Char} {m : CountryMatch} {r : List Char}
    (h : findCountry s = some (p, m, r)) :
    s = p ++ wholeMatch m ++ r ∧ tryCountryAt (wholeMatch m ++ r) = some (m, r) ∧
    ∀ j < p.length, tryCountryAt (List.drop j s) = none := by
  induction s generalizing p with
  | nil => cases h
  | cons c cs ih =>
    rcases ht : tryCountryAt (c :: cs) with _ | ⟨⟨m0, r0⟩⟩
    · simp only [findCountry, ht] at h
      rcases hrec : findCountry cs with _ | ⟨⟨p', m', r'⟩⟩
      · rw [hrec] at h
        cases h
      · rw [hrec] at h
        simp only [Option.some.injEq, Prod.mk.injEq] at h
        obtain ⟨hp, hm, hr⟩ := h
        subst hp; subst hm; subst hr
        obtain ⟨e1, e2, e3⟩ := ih hrec
        refine ⟨by simp [e1, List.append_assoc], e2, ?_⟩
        intro j hj
        cases j with
        | zero => exact ht
        | succ j' =>
          simp only [List.drop_succ_cons]
          exact e3 j' (by simpa using Nat.lt_of_succ_lt_succ hj)
    · simp only [findCountry, ht] at h
      simp only [Option.some.injEq, Prod.mk.injEq] at h
      obtain ⟨hp, hm, hr⟩ := h
      subst hp; subst hm; subst hr
      obtain ⟨g, a, b, hm0, _, _, _, _, heq, _⟩ := tryCountryAt_sound ht
      have heq2 : c :: cs = wholeMatch m0 ++ r0 := by
        rw [heq, hm0, wholeMatch_mOf]
      refine ⟨by simpa using heq2, by rw [← heq2]; exact ht, ?_⟩
      intro j hj
      simp at hj

theorem tryCountryAt_length {s : List Char} {m : CountryMatch} {r : List Char}
    (h : tryCountryAt s = some (m, r)) : r.length < s.length := by
  obtain ⟨g, a, b, _, _, _, _, _, heq, _⟩ := tryCountryAt_sound h
  rw [heq]
  simp [innerText, List.length_append]
  omega

theorem findCountry_length {s p : List Char} {m : CountryMatch} {r : List Char}
    (h : findCountry s = some (p, m, r)) : r.length < s.length := by
  obtain ⟨e1, e2, _⟩ := findCountry_sound h
  have := tryCountryAt_length e2
  rw [e1]
  simp only [List.length_append] at *
  omega

theorem subChunks_fuel_aux : ∀ (n : Nat) (s : List Char), s.length ≤ n →
    ∀ f1 f2, s.length < f1 → s.length < f2 → subChunks f1 s = subChunks f2 s := by
  intro n
  induction n with
  | zero =>
    intro s hs f1 f2 h1 h2
    obtain ⟨g1, rfl⟩ : ∃ g, f1 = g + 1 := ⟨f1 - 1, by omega⟩
    obtain ⟨g2, rfl⟩ : ∃ g, f2 = g + 1 := ⟨f2 - 1, by omega⟩
    have hnil : s = [] := List.length_eq_zero.mp (by omega)
    subst hnil
    rfl
  | succ n ih =>
    intro s hs f1 f2 h1 h2
    obtain ⟨g1, rfl⟩ : ∃ g, f1 = g + 1 := ⟨f1 - 1, by omega⟩
    obtain ⟨g2, rfl⟩ : ∃ g, f2 = g + 1 := ⟨f2 - 1, by omega⟩
    rcases hfc : findCountry s with _ | ⟨⟨p, m, r⟩⟩
    · simp only [subChunks, hfc]
    · simp only [subChunks, hfc]
      have hlen := findCountry_length hfc
      rw [ih r (by omega) g1 g2 (by omega) (by omega)]

theorem countryChunks_peel_some {s p : List Char} {m : CountryMatch} {r : List Char}
    (h : findCountry s = some (p, m, r)) :
    countryChunks s = ((p, m) :: (countryChunks r).1, (countryChunks r).2) := by
  have hlen := findCountry_length h
  show subChunks (s.length + 1) s = _
  simp only [subChunks, h]
  rw [subChunks_fuel_aux r.length r (le_refl _) s.length (r.length + 1) (by omega) (by omega)]
  rfl

theorem countryChunks_peel_none {s : List Char} (h : findCountry s = none) :
    countryChunks s = ([], s) := by
  unfold countryChunks
  simp only [subChunks, h]

theorem update_peel_some {s p : List Char} {m : CountryMatch} {r : List Char}
    (L : List (List Char × (Int × Int))) (h : findCountry s = some (p, m, r)) :
    update_lengths L s = p ++ replacer L m ++ update_lengths L r := by
  unfold update_lengths
  rw [countryChunks_peel_some h]
  rfl

theorem update_peel_none {s : List Char} (L : List (List Char × (Int × Int)))
    (h : findCountry s = none) : update_lengths L s = s := by
  unfold update_lengths
  rw [countryChunks_peel_none h]
  rfl

/-! ## C3: no-change runs return the input text -/

theorem replacer_id_of_vals {L : List (List Char × (Int × Int))} {m : CountryMatch}
    (hmin : patchedMinVal L m = (pyParseDigits? m.minTok).map (fun n => (n : Int)))
    (hmax : patchedMaxVal L m = (pyParseDigits? m.maxTok).map (fun n => (n : Int))) :
    replacer L m = wholeMatch m := by
  rcases hL : lookupD L m.code with _ | ⟨amin, amax⟩
  · simp only [replacer, hL]
  · by_cases hle : amin ≤ 0
    · simp only [replacer, hL, if_pos hle]
    · rcases hpm : pyParseDigits? m.minTok with _ | cmin
      · simp only [replacer, hL, if_neg hle, hpm]
      · rcases hpx : pyParseDigits? m.maxTok with _ | cmax
        · simp only [replacer, hL, if_neg hle, hpm, hpx]
        · have h1 : mergeMin amin (cmin : Int) = (cmin : Int) := by
            simpa [patchedMinVal, hpm, hpx, hL, if_neg hle] using hmin
          have h2 : mergeMax amax (cmax : Int) = (cmax : Int) := by
            simpa [patchedMaxVal, hpm, hpx, hL, if_neg hle] using hmax
          simp only [replacer, hL, if_neg hle, hpm, hpx, if_pos (And.intro h1 h2)]

theorem update_fixed_aux (L : List (List Char × (Int × Int))) :
    ∀ (n : Nat) (s : List Char), s.length ≤ n →
    (∀ pm ∈ (countryChunks s).1,
      patchedMinVal L pm.2 = (pyParseDigits? pm.2.minTok).map (fun k => (k : Int)) ∧
      patchedMaxVal L pm.2 = (pyParseDigits? pm.2.maxTok).map (fun k => (k : Int))) →
    update_lengths L s = s := by
  intro n
  induction n with
  | zero =>
    intro s hs _
    have hnil : s = [] := List.length_eq_zero.mp (by omega)
    subst hnil
    exact update_peel_none L rfl
  | succ n ih =>
    intro s hs h
    rcases hfc : findCountry s with _ | ⟨⟨p, m, r⟩⟩
    · exact update_peel_none L hfc
    · have hlen := findCountry_length hfc
      have hchunks := countryChunks_peel_some hfc
      rw [update_peel_some L hfc]
      have hm := h (p, m) (by rw [hchunks]; exact List.mem_cons_self _ _)
      rw [replacer_id_of_vals hm.1 hm.2]
      rw [ih r (by omega) (fun pm hpm => h pm (by
        rw [hchunks]
        exact List.mem_cons_of_mem _ hpm))]
      exact ((findCountry_sound hfc).1).symm

/-- C3: when for every matched entry the merged minimum and maximum values
equal the current parsed values — in particular when the map carries exactly
the current pairs — the patched text is byte-for-byte the input. -/
theorem update_lengths_fixed_when_values_unchanged (L : List (List Char × (Int × Int)))
    (s : List Char)
    (h : ∀ pm ∈ (countryChunks s).1,
      patchedMinVal L pm.2 = (pyParseDigits? pm.2.minTok).map (fun k => (k : Int)) ∧
      patchedMaxVal L pm.2 = (pyParseDigits? pm.2.maxTok).map (fun k => (k : Int))) :
    update_lengths L s = s :=
  update_fixed_aux L s.length s (le_refl _) h

theorem update_lengths_fixed_when_values_unchanged_witness :
    (∀ pm ∈ (countryChunks "x Country(code: \"US\", minLength: 7,\nmaxLength: 9) y".data).1,
      patchedMinVal [("US".data, ((7 : Int), (9 : Int)))] pm.2 =
        (pyParseDigits? pm.2.minTok).map (fun k => (k : Int)) ∧
      patchedMaxVal [("US".data, ((7 : Int), (9 : Int)))] pm.2 =
        (pyParseDigits? pm.2.maxTok).map (fun k => (k : Int))) ∧
    update_lengths [("US".data, ((7 : Int), (9 : Int)))]
        "x Country(code: \"US\", minLength: 7,\nmaxLength: 9) y".data =
      "x Country(code: \"US\", minLength: 7,\nmaxLength: 9) y".data :=
  ⟨by decide,
    update_lengths_fixed_when_values_unchanged _ _ (by decide)⟩

/-! ## C5: only the two digit tokens of each match can change -/

theorem replacer_shape (L : List (List Char × (Int × Int))) (m : CountryMatch)
    (h1 : tokOK m.minTok) (h2 : tokOK m.maxTok) :
    ∃ a b, tokOK a ∧ tokOK b ∧ replacer L m = m.g1 ++ a ++ m.sep ++ b := by
  rcases hL : lookupD L m.code with _ | ⟨amin, amax⟩
  · exact ⟨m.minTok, m.maxTok, h1, h2, by simp only [replacer, hL, wholeMatch]⟩
  · by_cases hle : amin ≤ 0
    · exact ⟨m.minTok, m.maxTok, h1, h2, by simp only [replacer, hL, if_pos hle, wholeMatch]⟩
    · rcases hpm : pyParseDigits? m.minTok with _ | cmin
      · exact ⟨m.minTok, m.maxTok, h1, h2,
          by simp only [replacer, hL, if_neg hle, hpm, wholeMatch]⟩
      · rcases hpx : pyParseDigits? m.maxTok with _ | cmax
        · exact ⟨m.minTok, m.maxTok, h1, h2,
            by simp only [replacer, hL, if_neg hle, hpm, hpx, wholeMatch]⟩
        · by_cases hch : mergeMin amin (cmin : Int) = (cmin : Int) ∧
              mergeMax amax (cmax : Int) = (cmax : Int)
          · exact ⟨m.minTok, m.maxTok, h1, h2,
              by simp only [replacer, hL, if_neg hle, hpm, hpx, if_pos hch, wholeMatch]⟩
          · have hmin0 : (0 : Int) ≤ mergeMin amin (cmin : Int) := by
              unfold mergeMin
              split <;> omega
            have hmax0 : (0 : Int) ≤ mergeMax amax (cmax : Int) := by
              unfold mergeMax
              split <;> omega
            exact ⟨pyStr (mergeMin amin (cmin : Int)), pyStr (mergeMax amax (cmax : Int)),
              pyStr_tokOK hmin0, pyStr_tokOK hmax0,
              by simp only [replacer, hL, if_neg hle, hpm, hpx, if_neg hch]⟩

theorem match_toks_ok {s p : List Char} {m : CountryMatch} {r : List Char}
    (h : findCountry s = some (p, m, r)) : tokOK m.minTok ∧ tokOK m.maxTok := by
  obtain ⟨_, e2, _⟩ := findCountry_sound h
  obtain ⟨g, a, b, hm, _, ha, hb, _⟩ := tryCountryAt_sound e2
  subst hm
  exact ⟨ha, hb⟩

theorem update_frame_aux (L : List (List Char × (Int × Int))) :
    ∀ (n : Nat) (s : List Char), s.length ≤ n →
    ∃ tk : List (List Char × List Char),
      tk.length = (countryChunks s).1.length ∧
      (∀ ab ∈ tk, tokOK ab.1 ∧ tokOK ab.2) ∧
      s = renderTok (countryChunks s).1
        ((countryChunks s).1.map (fun pm => (pm.2.minTok, pm.2.maxTok))) (countryChunks s).2 ∧
      update_lengths L s = renderTok (countryChunks s).1 tk (countryChunks s).2 := by
  intro n
  induction n with
  | zero =>
    intro s hs
    have hnil : s = [] := List.length_eq_zero.mp (by omega)
    subst hnil
    exact ⟨[], rfl, by simp, rfl, rfl⟩
  | succ n ih =>
    intro s hs
    rcases hfc : findCountry s with _ | ⟨⟨p, m, r⟩⟩
    · rw [countryChunks_peel_none hfc]
      exact ⟨[], rfl, by simp, rfl, update_peel_none L hfc⟩
    · have hlen := findCountry_length hfc
      obtain ⟨tk, htl, htok, hrender, hupd⟩ := ih r (by omega)
      obtain ⟨ha, hb⟩ := match_toks_ok hfc
      obtain ⟨a0, b0, ha0, hb0, hrep⟩ := replacer_shape L m ha hb
      refine ⟨(a0, b0) :: tk, ?_, ?_, ?_, ?_⟩
      · rw [countryChunks_peel_some hfc]
        simpa using htl
      · intro ab hab
        rcases List.mem_cons.mp hab with hab | hab
        · subst hab
          exact ⟨ha0, hb0⟩
        · exact htok ab hab
      · rw [countryChunks_peel_some hfc]
        simp only [List.map_cons, renderTok]
        rw [← hrender]
        have := (findCountry_sound hfc).1
        rw [this]
        simp [wholeMatch, List.append_assoc]
      · rw [countryChunks_peel_some hfc]
        simp only [renderTok]
        rw [update_peel_some L hfc, hrep, ← hupd]
        simp [List.append_assoc]

/-- C5: the patcher's output differs from its input only inside the two digit
tokens of matched entries (the replacement tokens are themselves nonempty
digit strings); every gap, every group-1/group-4 byte of each match, and the
tail after the last match are copied verbatim. -/
theorem update_lengths_frame (L : List (List Char × (Int × Int))) (s : List Char) :
    ∃ tk : List (List Char × List Char),
      tk.length = (countryChunks s).1.length ∧
      (∀ ab ∈ tk, tokOK ab.1 ∧ tokOK ab.2) ∧
      s = renderTok (countryChunks s).1
        ((countryChunks s).1.map (fun pm => (pm.2.minTok, pm.2.maxTok))) (countryChunks s).2 ∧
      update_lengths L s = renderTok (countryChunks s).1 tk (countryChunks s).2 :=
  update_frame_aux L s.length s (le_refl _)

/-! ## Digit-run equivalence: basic lemmas -/

theorem headNotDigit_dropWhileD (l : List Char) :
    headNotDigit (l.dropWhile isDigitC) = true := headNotDigit_dropWhile l

theorem takeWhileD_ne_nil {c : Char} {cs : List Char} (h : isDigitC c = true) :
    (c :: cs).takeWhile isDigitC ≠ [] := by
  simp [List.takeWhile_cons, h]


theorem DEq_cases {u v : List Char} (h : DEq u v) :
    (u = [] ∧ v = []) ∨
    (∃ c u2 v2, isDigitC c = false ∧ u = c :: u2 ∧ v = c :: v2 ∧ DEq u2 v2) ∨
    (∃ a b u2 v2, (a ≠ [] ∧ a.all isDigitC = true) ∧ (b ≠ [] ∧ b.all isDigitC = true) ∧
      headNotDigit u2 = true ∧ headNotDigit v2 = true ∧ u = a ++ u2 ∧ v = b ++ v2 ∧
      DEq u2 v2) := by
  cases h with
  | nil => exact Or.inl ⟨rfl, rfl⟩
  | cons c hc h => exact Or.inr (Or.inl ⟨c, _, _, hc, rfl, rfl, h⟩)
  | run a b ha hb hs ht h => exact Or.inr (Or.inr ⟨a, b, _, _, ha, hb, hs, ht, rfl, rfl, h⟩)

theorem DEq_refl (s : List Char) : DEq s s := by
  have H : ∀ (n : Nat) (s : List Char), s.length ≤ n → DEq s s := by
    intro n
    induction n with
    | zero =>
      intro s hs
      have hz : s = [] := List.length_eq_zero.mp (by omega)
      subst hz
      exact DEq.nil
    | succ n ih =>
      intro s hs
      cases s with
      | nil => exact DEq.nil
      | cons c cs =>
        by_cases hd : isDigitC c
        · have hne : (c :: cs).takeWhile isDigitC ≠ [] := takeWhileD_ne_nil hd
          have hsplit : c :: cs =
              (c :: cs).takeWhile isDigitC ++ (c :: cs).dropWhile isDigitC :=
            (List.takeWhile_append_dropWhile _ _).symm
          have hlen : ((c :: cs).takeWhile isDigitC).length +
              ((c :: cs).dropWhile isDigitC).length = (c :: cs).length := by
            rw [← List.length_append, ← hsplit]
          have hpos : 0 < ((c :: cs).takeWhile isDigitC).length := List.length_pos.mpr hne
          have hlt : ((c :: cs).dropWhile isDigitC).length ≤ n := by
            simp only [List.length_cons] at hlen hs
            omega
          rw [hsplit]
          exact DEq.run _ _ ⟨hne, takeWhile_all _ _⟩ ⟨hne, takeWhile_all _ _⟩
            (headNotDigit_dropWhileD _) (headNotDigit_dropWhileD _) (ih _ hlt)
        · exact DEq.cons c (by simpa using hd)
            (ih cs (by simpa using Nat.le_of_succ_le_succ hs))
  exact H s.length s (le_refl _)

theorem DEq_symm {s t : List Char} (h : DEq s t) : DEq t s := by
  induction h with
  | nil => exact DEq.nil
  | cons c hc _ ih => exact DEq.cons c hc ih
  | run a b ha hb hs ht _ ih => exact DEq.run b a hb ha ht hs ih

theorem DEq_nil_aux {u t : List Char} (h : DEq u t) (hu : u = []) : t = [] := by
  induction h with
  | nil => rfl
  | cons c hc h ih => simp at hu
  | run a b ha hb hs ht h ih => exact absurd hu (by simp [ha.1])

theorem DEq_append_left {x y : List Char} (hx : headNotDigit x = true)
    (hy : headNotDigit y = true) (h : DEq x y) :
    ∀ z : List Char, DEq (z ++ x) (z ++ y) := by
  have H : ∀ (n : Nat) (z : List Char), z.length ≤ n → DEq (z ++ x) (z ++ y) := by
    intro n
    induction n with
    | zero =>
      intro z hz
      have hznil : z = [] := List.length_eq_zero.mp (by omega)
      subst hznil
      exact h
    | succ n ih =>
      intro z hz
      cases z with
      | nil => exact h
      | cons c cs =>
        by_cases hd : isDigitC c
        · have hne : (c :: cs).takeWhile isDigitC ≠ [] := takeWhileD_ne_nil hd
          have hsplit : c :: cs =
              (c :: cs).takeWhile isDigitC ++ (c :: cs).dropWhile isDigitC :=
            (List.takeWhile_append_dropWhile _ _).symm
          have hlen : ((c :: cs).takeWhile isDigitC).length +
              ((c :: cs).dropWhile isDigitC).length = (c :: cs).length := by
            rw [← List.length_append, ← hsplit]
          have hpos : 0 < ((c :: cs).takeWhile isDigitC).length := List.length_pos.mpr hne
          rcases hdw : (c :: cs).dropWhile isDigitC with _ | ⟨d, ds⟩
          · have hz2 : c :: cs = (c :: cs).takeWhile isDigitC := by
              conv_lhs => rw [hsplit]
              rw [hdw, List.append_nil]
            rw [hz2]
            exact DEq.run _ _ ⟨hne, takeWhile_all _ _⟩ ⟨hne, takeWhile_all _ _⟩ hx hy h
          · have hdd : isDigitC d = false := by
              have hh := headNotDigit_dropWhileD (c :: cs)
              rw [hdw] at hh
              simpa [headNotDigit] using hh
            have hlt : (d :: ds).length ≤ n := by
              rw [hdw] at hlen
              simp only [List.length_cons] at hlen hz ⊢
              omega
            have hrec := ih (d :: ds) hlt
            have hrun := DEq.run ((c :: cs).takeWhile isDigitC) ((c :: cs).takeWhile isDigitC)
              ⟨hne, takeWhile_all _ _⟩ ⟨hne, takeWhile_all _ _⟩
              (by simp [headNotDigit, hdd]) (by simp [headNotDigit, hdd]) hrec
            have hfin : c :: cs ++ x = (c :: cs).takeWhile isDigitC ++ (d :: ds ++ x) := by
              conv_lhs => rw [hsplit]
              rw [hdw, List.append_assoc]
            have hfin2 : c :: cs ++ y = (c :: cs).takeWhile isDigitC ++ (d :: ds ++ y) := by
              conv_lhs => rw [hsplit]
              rw [hdw, List.append_assoc]
            rw [hfin, hfin2]
            exact hrun
        · exact DEq.cons c (by simpa using hd)
            (ih cs (by simpa using Nat.le_of_succ_le_succ hz))
  exact fun z => H z.length z (le_refl _)

theorem DEq_headNotDigit {u v : List Char} (h : DEq u v) :
    headNotDigit u = headNotDigit v := by
  rcases DEq_cases h with ⟨hu, hv⟩ | ⟨c, u2, v2, hc, hu, hv, h2⟩ |
    ⟨a, b, u2, v2, ha, hb, hs, ht, hu, hv, h2⟩
  · rw [hu, hv]
  · rw [hu, hv]
    simp [headNotDigit]
  · obtain ⟨e, es, rfl⟩ := List.exists_cons_of_ne_nil ha.1
    obtain ⟨f, fs, rfl⟩ := List.exists_cons_of_ne_nil hb.1
    have he : isDigitC e = true := by
      have := ha.2
      simp only [List.all_cons, Bool.and_eq_true] at this
      exact this.1
    have hf : isDigitC f = true := by
      have := hb.2
      simp only [List.all_cons, Bool.and_eq_true] at this
      exact this.1
    rw [hu, hv]
    simp [headNotDigit, he, hf]

theorem DEq_nil_iff {u v : List Char} (h : DEq u v) : u = [] ↔ v = [] := by
  constructor
  · exact DEq_nil_aux h
  · exact fun hv => DEq_nil_aux (DEq_symm h) hv

theorem not_digit_of_space {c : Char} (h : isSpaceC c = true) : isDigitC c = false := by
  cases hd : isDigitC c
  · rfl
  · exact absurd h (by simp [not_space_of_digit hd])

theorem not_digit_of_upper {c : Char} (h : isUpperC c = true) : isDigitC c = false := by
  cases hd : isDigitC c
  · rfl
  · exfalso
    simp only [isUpperC, Bool.and_eq_true, decide_eq_true_eq] at h
    simp only [isDigitC, Bool.and_eq_true, decide_eq_true_eq] at hd
    have : ('A' : Char) ≤ '9' := le_trans h.1 hd.2
    exact absurd this (by decide)

theorem matchLit_SIM {l : List Char} (hl : l.all (fun c => !isDigitC c) = true)
    {s t : List Char} (h : DEq s t) :
    (matchLit l s = none ∧ matchLit l t = none) ∨
    ∃ s2 t2, matchLit l s = some s2 ∧ matchLit l t = some t2 ∧ DEq s2 t2 := by
  induction l generalizing s t with
  | nil => exact Or.inr ⟨s, t, rfl, rfl, h⟩
  | cons c cs ih =>
    simp only [List.all_cons, Bool.and_eq_true, Bool.not_eq_true'] at hl
    rcases DEq_cases h with ⟨hu, hv⟩ | ⟨d, u2, v2, hd, hu, hv, h2⟩ |
      ⟨a, b, u2, v2, ha, hb, hhs, hht, hu, hv, h2⟩
    · subst hu; subst hv
      exact Or.inl ⟨rfl, rfl⟩
    · subst hu; subst hv
      by_cases hdc : d = c
      · subst hdc
        have hred : ∀ X : List Char, matchLit (d :: cs) (d :: X) = matchLit cs X := by
          intro X
          simp [matchLit]
        rw [hred, hred]
        exact ih hl.2 h2
      · rw [matchLit_cons_ne _ _ hdc, matchLit_cons_ne _ _ hdc]
        exact Or.inl ⟨rfl, rfl⟩
    · subst hu; subst hv
      obtain ⟨e, es, rfl⟩ := List.exists_cons_of_ne_nil ha.1
      obtain ⟨f, fs, rfl⟩ := List.exists_cons_of_ne_nil hb.1
      have he : isDigitC e = true := by
        have := ha.2
        simp only [List.all_cons, Bool.and_eq_true] at this
        exact this.1
      have hf : isDigitC f = true := by
        have := hb.2
        simp only [List.all_cons, Bool.and_eq_true] at this
        exact this.1
      have hec : e ≠ c := fun hh => by rw [hh] at he; rw [hl.1] at he; cases he
      have hfc : f ≠ c := fun hh => by rw [hh] at hf; rw [hl.1] at hf; cases hf
      rw [List.cons_append, List.cons_append,
        matchLit_cons_ne _ _ hec, matchLit_cons_ne _ _ hfc]
      exact Or.inl ⟨rfl, rfl⟩

theorem DEq_ws_SIM {s t : List Char} (h : DEq s t) :
    s.takeWhile isSpaceC = t.takeWhile isSpaceC ∧
    DEq (s.dropWhile isSpaceC) (t.dropWhile isSpaceC) := by
  induction h with
  | nil => exact ⟨rfl, DEq.nil⟩
  | cons c hc h ih =>
    by_cases hsp : isSpaceC c
    · refine ⟨?_, ?_⟩
      · simp only [List.takeWhile_cons, hsp, if_true]
        rw [ih.1]
      · simp only [List.dropWhile_cons, hsp, if_true]
        exact ih.2
    · have hsp2 : isSpaceC c = false := by simpa using hsp
      rw [takeWhile_cons_neg _ hsp2, takeWhile_cons_neg _ hsp2,
        dropWhile_cons_neg _ hsp2, dropWhile_cons_neg _ hsp2]
      exact ⟨rfl, DEq.cons c hc (by assumption)⟩
  | run a b ha hb hs ht h ih =>
    obtain ⟨e, es, rfl⟩ := List.exists_cons_of_ne_nil ha.1
    obtain ⟨f, fs, rfl⟩ := List.exists_cons_of_ne_nil hb.1
    have he : isDigitC e = true := by
      have := ha.2
      simp only [List.all_cons, Bool.and_eq_true] at this
      exact this.1
    have hf : isDigitC f = true := by
      have := hb.2
      simp only [List.all_cons, Bool.and_eq_true] at this
      exact this.1
    rw [List.cons_append, List.cons_append,
      takeWhile_cons_neg _ (not_space_of_digit he), takeWhile_cons_neg _ (not_space_of_digit hf),
      dropWhile_cons_neg _ (not_space_of_digit he), dropWhile_cons_neg _ (not_space_of_digit hf)]
    exact ⟨rfl, DEq.run (e :: es) (f :: fs) ha hb hs ht (by assumption)⟩

theorem takeWhile_digit_headNot {x : List Char} (h : headNotDigit x = true) :
    x.takeWhile isDigitC = [] := by
  cases x with
  | nil => rfl
  | cons c cs =>
    simp only [headNotDigit, Bool.not_eq_true'] at h
    exact takeWhile_cons_neg _ h

theorem dropWhile_digit_headNot {x : List Char} (h : headNotDigit x = true) :
    x.dropWhile isDigitC = x := by
  cases x with
  | nil => rfl
  | cons c cs =>
    simp only [headNotDigit, Bool.not_eq_true'] at h
    exact dropWhile_cons_neg _ h

theorem DEq_digits_SIM {s t : List Char} (h : DEq s t) :
    ((s.takeWhile isDigitC = [] ∧ t.takeWhile isDigitC = []) ∨
     (s.takeWhile isDigitC ≠ [] ∧ t.takeWhile isDigitC ≠ [] ∧
      (s.takeWhile isDigitC).all isDigitC = true ∧
      (t.takeWhile isDigitC).all isDigitC = true)) ∧
    DEq (s.dropWhile isDigitC) (t.dropWhile isDigitC) := by
  rcases DEq_cases h with ⟨hu, hv⟩ | ⟨c, u2, v2, hc, hu, hv, h2⟩ |
    ⟨a, b, u2, v2, ha, hb, hhs, hht, hu, hv, h2⟩
  · subst hu; subst hv
    exact ⟨Or.inl ⟨rfl, rfl⟩, DEq.nil⟩
  · subst hu; subst hv
    rw [takeWhile_cons_neg _ hc, takeWhile_cons_neg _ hc,
      dropWhile_cons_neg _ hc, dropWhile_cons_neg _ hc]
    exact ⟨Or.inl ⟨rfl, rfl⟩, DEq.cons c hc h2⟩
  · subst hu; subst hv
    rw [takeWhile_append_all _ ha.2, takeWhile_append_all _ hb.2,
      takeWhile_digit_headNot hhs, takeWhile_digit_headNot hht,
      dropWhile_append_all _ ha.2, dropWhile_append_all _ hb.2,
      dropWhile_digit_headNot hhs, dropWhile_digit_headNot hht]
    rw [List.append_nil, List.append_nil]
    exact ⟨Or.inr ⟨ha.1, hb.1, ha.2, hb.2⟩, h2⟩

theorem tryMinMax_none_SIM {s t : List Char} (h : DEq s t)
    (hn : tryMinMax s = none) : tryMinMax t = none := by
  have hlit1 : ("minLength:".data).all (fun c => !isDigitC c) = true := by decide
  have hlit2 : ("maxLength:".data).all (fun c => !isDigitC c) = true := by decide
  rcases matchLit_SIM hlit1 h with ⟨h1, h2⟩ | ⟨s1, t1, hm1, hm2, hDs1⟩
  · simp only [tryMinMax, h2]
  · obtain ⟨hw1, hDs2⟩ := DEq_ws_SIM hDs1
    obtain ⟨hdig1, hDs3⟩ := DEq_digits_SIM hDs2
    rcases hdig1 with ⟨he1, he2⟩ | ⟨hne1, hne2, _, _⟩
    · simp only [tryMinMax, hm2]
      rw [if_pos he2]
    · obtain ⟨hw2, hDs4⟩ := DEq_ws_SIM hDs3
      rcases DEq_cases hDs4 with ⟨hs4, ht4⟩ | ⟨c, u2, v2, hc, hs4, ht4, hD5⟩ |
        ⟨a, b, u2, v2, ha, hb, hhs, hht, hs4, ht4, hD5⟩
      · simp only [tryMinMax, hm2]
        rw [if_neg hne2]
        simp only [ht4]
      · by_cases hcc : c = ','
        · obtain ⟨hw3, hD6⟩ := DEq_ws_SIM hD5
          by_cases hnl : hasNl (u2.takeWhile isSpaceC) = true
          · rcases matchLit_SIM hlit2 hD6 with ⟨h7, h8⟩ | ⟨s7, t7, hm7, hm8, hD7⟩
            · simp only [tryMinMax, hm2]
              rw [if_neg hne2]
              simp only [ht4]
              rw [if_pos hcc, if_pos (hw3 ▸ hnl)]
              simp only [h8]
            · obtain ⟨hw4, hD8⟩ := DEq_ws_SIM hD7
              obtain ⟨hdig2, hD9⟩ := DEq_digits_SIM hD8
              rcases hdig2 with ⟨hf1, hf2⟩ | ⟨hg1, hg2, _, _⟩
              · simp only [tryMinMax, hm2]
                rw [if_neg hne2]
                simp only [ht4]
                rw [if_pos hcc, if_pos (hw3 ▸ hnl)]
                simp only [hm8]
                rw [if_pos hf2]
              · exfalso
                simp only [tryMinMax, hm1] at hn
                rw [if_neg hne1] at hn
                simp only [hs4] at hn
                rw [if_pos hcc, if_pos hnl] at hn
                simp only [hm7] at hn
                rw [if_neg hg1] at hn
                cases hn
          · simp only [tryMinMax, hm2]
            rw [if_neg hne2]
            simp only [ht4]
            rw [if_pos hcc, if_neg (hw3 ▸ hnl)]
        · simp only [tryMinMax, hm2]
          rw [if_neg hne2]
          simp only [ht4]
          rw [if_neg hcc]
      · obtain ⟨f, fs, rfl⟩ := List.exists_cons_of_ne_nil hb.1
        have hf : isDigitC f = true := by
          have := hb.2
          simp only [List.all_cons, Bool.and_eq_true] at this
          exact this.1
        have hfc : ¬ (f = ',') := fun hh => by
          rw [hh] at hf
          exact absurd hf (by decide)
        simp only [tryMinMax, hm2]
        rw [if_neg hne2]
        simp only [ht4, List.cons_append]
        rw [if_neg hfc]

theorem tryMinMax_head_digit {c : Char} (x : List Char) (hd : isDigitC c = true) :
    tryMinMax (c :: x) = none := by
  have hcm : c ≠ 'm' := fun he => by
    rw [he] at hd
    exact absurd hd (by decide)
  have hm : matchLit "minLength:".data (c :: x) = none := by
    rw [show ("minLength:".data) = 'm' :: "inLength:".data from rfl]
    exact matchLit_cons_ne _ _ hcm
  simp only [tryMinMax, hm]

theorem findMinMax_digits {z : List Char} (hz : z.all isDigitC = true) (w : List Char) :
    (findMinMax (z ++ w) = none ↔ findMinMax w = none) := by
  induction z with
  | nil => simp
  | cons c z2 ih =>
    simp only [List.all_cons, Bool.and_eq_true] at hz
    rw [← ih hz.2]
    rw [List.cons_append]
    simp only [findMinMax, tryMinMax_head_digit _ hz.1]
    rcases hrec : findMinMax (z2 ++ w) with _ | x <;> simp [hrec]

theorem findMinMax_none_SIM {u v : List Char} (h : DEq u v)
    (hn : findMinMax u = none) : findMinMax v = none := by
  induction h with
  | nil => rfl
  | cons c hc h ih =>
    rename_i s t
    rcases ht : tryMinMax (c :: s) with _ | p
    · simp only [findMinMax, ht] at hn
      rcases hf : findMinMax s with _ | x
      · have htn : tryMinMax (c :: t) = none :=
          tryMinMax_none_SIM (DEq.cons c hc h) ht
        have hft := ih hf
        simp only [findMinMax, htn, hft]
      · simp only [hf] at hn
        cases hn
    · simp only [findMinMax, ht] at hn
      cases hn
  | run a b ha hb hs ht h ih =>
    have h1 : findMinMax _ = none := (findMinMax_digits ha.2 _).mp hn
    have h2 := ih h1
    exact (findMinMax_digits hb.2 _).mpr h2

theorem head_digit_of_runtok {a : List Char} (ha : a ≠ [] ∧ a.all isDigitC = true) :
    ∃ e es, a = e :: es ∧ isDigitC e = true := by
  obtain ⟨e, es, rfl⟩ := List.exists_cons_of_ne_nil ha.1
  have h2 := ha.2
  simp only [List.all_cons, Bool.and_eq_true] at h2
  exact ⟨e, es, rfl, h2.1⟩

theorem digit_ne_quote {e : Char} (h : isDigitC e = true) : ¬ e = '"' := fun hh => by
  rw [hh] at h
  exact absurd h (by decide)

theorem digit_ne_comma {e : Char} (h : isDigitC e = true) : ¬ e = ',' := fun hh => by
  rw [hh] at h
  exact absurd h (by decide)

theorem digit_not_upper {e : Char} (h : isDigitC e = true) : ¬ isUpperC e = true :=
  fun hup => by
    rw [not_digit_of_upper hup] at h
    cases h

theorem tryCode_exit1 {s s1 : List Char} {q : Char} {X : List Char}
    (hm : matchLit "code:".data s = some s1)
    (hA : s1.dropWhile isSpaceC = q :: X) (hq : ¬ q = '"') : tryCode s = none := by
  rcases X with _ | ⟨x1, _ | ⟨x2, _ | ⟨x3, xr⟩⟩⟩ <;> simp [tryCode, hm, hA, hq]

theorem tryCode_exit2 {s s1 : List Char} {c1 : Char} {X : List Char}
    (hm : matchLit "code:".data s = some s1)
    (hA : s1.dropWhile isSpaceC = '"' :: c1 :: X) (hc : ¬ isUpperC c1 = true) :
    tryCode s = none := by
  rcases X with _ | ⟨x2, _ | ⟨x3, xr⟩⟩ <;> simp [tryCode, hm, hA, hc]

theorem tryCode_exit3 {s s1 : List Char} {c1 c2 : Char} {X : List Char}
    (hm : matchLit "code:".data s = some s1)
    (hA : s1.dropWhile isSpaceC = '"' :: c1 :: c2 :: X) (hc : ¬ isUpperC c2 = true) :
    tryCode s = none := by
  rcases X with _ | ⟨x3, xr⟩ <;> simp [tryCode, hm, hA, hc]

theorem tryCode_exit4 {s s1 : List Char} {c1 c2 q2 : Char} {X : List Char}
    (hm : matchLit "code:".data s = some s1)
    (hA : s1.dropWhile isSpaceC = '"' :: c1 :: c2 :: q2 :: X) (hq : ¬ q2 = '"') :
    tryCode s = none := by
  simp [tryCode, hm, hA, hq]

theorem tryCode_exit5 {s s1 : List Char} {c1 c2 : Char} {X : List Char}
    (hm : matchLit "code:".data s = some s1)
    (hA : s1.dropWhile isSpaceC = '"' :: c1 :: c2 :: '"' :: X)
    (h1 : isUpperC c1 = true) (h2 : isUpperC c2 = true)
    (hX : X.dropWhile isSpaceC = []) : tryCode s = none := by
  simp only [tryCode, hm, hA]
  rw [if_pos ⟨trivial, trivial, h1, h2⟩]
  simp only [hX]

theorem tryCode_exit6 {s s1 : List Char} {c1 c2 e : Char} {X Y : List Char}
    (hm : matchLit "code:".data s = some s1)
    (hA : s1.dropWhile isSpaceC = '"' :: c1 :: c2 :: '"' :: X)
    (h1 : isUpperC c1 = true) (h2 : isUpperC c2 = true)
    (hX : X.dropWhile isSpaceC = e :: Y) (he : ¬ e = ',') : tryCode s = none := by
  simp only [tryCode, hm, hA]
  rw [if_pos ⟨trivial, trivial, h1, h2⟩]
  simp only [hX]
  rw [if_neg he]

theorem tryCode_succ {s s1 : List Char} {c1 c2 : Char} {X Y : List Char}
    (hm : matchLit "code:".data s = some s1)
    (hA : s1.dropWhile isSpaceC = '"' :: c1 :: c2 :: '"' :: X)
    (h1 : isUpperC c1 = true) (h2 : isUpperC c2 = true)
    (hX : X.dropWhile isSpaceC = ',' :: Y) :
    tryCode s = some ("code:".data ++ s1.takeWhile isSpaceC ++
      '"' :: c1 :: c2 :: '"' :: (X.takeWhile isSpaceC ++ [',']), [c1, c2], Y) := by
  simp only [tryCode, hm, hA]
  rw [if_pos ⟨trivial, trivial, h1, h2⟩]
  simp only [hX]
  simp

theorem tryCode_SIM {s t : List Char} (h : DEq s t) :
    (tryCode s = none ∧ tryCode t = none) ∨
    ∃ cc cd u u2, tryCode s = some (cc, cd, u) ∧ tryCode t = some (cc, cd, u2) ∧
      DEq u u2 := by
  have hlit : ("code:".data).all (fun c => !isDigitC c) = true := by decide
  rcases matchLit_SIM hlit h with ⟨h1, h2⟩ | ⟨s1, t1, hm1, hm2, hD1⟩
  · exact Or.inl ⟨by simp only [tryCode, h1], by simp only [tryCode, h2]⟩
  obtain ⟨hw1, hD2⟩ := DEq_ws_SIM hD1
  rcases DEq_cases hD2 with ⟨hA0, hB0⟩ | ⟨q, A1, B1, hqd, hA0, hB0, hD3⟩ |
    ⟨ra, rb, A1, B1, hra, hrb, _, _, hA0, hB0, _⟩
  · exact Or.inl ⟨by simp [tryCode, hm1, hA0], by simp [tryCode, hm2, hB0]⟩
  · by_cases hq : q = '"'
    · subst hq
      rcases DEq_cases hD3 with ⟨hA1, hB1⟩ | ⟨c1, A2, B2, hc1d, hA1, hB1, hD4⟩ |
      ⟨ra, rb, A2, B2, hra, hrb, _, _, hA1, hB1, _⟩
      · subst hA1; subst hB1
        exact Or.inl ⟨by simp [tryCode, hm1, hA0], by simp [tryCode, hm2, hB0]⟩
      · subst hA1; subst hB1
        by_cases hc1 : isUpperC c1 = true
        · rcases DEq_cases hD4 with ⟨hA2, hB2⟩ | ⟨c2, A3, B3, hc2d, hA2, hB2, hD5⟩ |
          ⟨ra, rb, A3, B3, hra, hrb, _, _, hA2, hB2, _⟩
          · subst hA2; subst hB2
            exact Or.inl ⟨by simp [tryCode, hm1, hA0], by simp [tryCode, hm2, hB0]⟩
          · subst hA2; subst hB2
            by_cases hc2 : isUpperC c2 = true
            · rcases DEq_cases hD5 with ⟨hA3, hB3⟩ | ⟨q2, A4, B4, hq2d, hA3, hB3, hD6⟩ |
              ⟨ra, rb, A4, B4, hra, hrb, _, _, hA3, hB3, _⟩
              · subst hA3; subst hB3
                exact Or.inl ⟨by simp [tryCode, hm1, hA0], by simp [tryCode, hm2, hB0]⟩
              · subst hA3; subst hB3
                by_cases hq2 : q2 = '"'
                · subst hq2
                  obtain ⟨hw2, hD7⟩ := DEq_ws_SIM hD6
                  rcases DEq_cases hD7 with ⟨hA4, hB4⟩ | ⟨e, A5, B5, hed, hA4, hB4, hD8⟩ |
                    ⟨ra, rb, A5, B5, hra, hrb, _, _, hA4, hB4, _⟩
                  · exact Or.inl ⟨tryCode_exit5 hm1 hA0 hc1 hc2 hA4,
                      tryCode_exit5 hm2 hB0 hc1 hc2 hB4⟩
                  · by_cases he : e = ','
                    · subst he
                      refine Or.inr ⟨_, _, A5, B5,
                        tryCode_succ hm1 hA0 hc1 hc2 hA4, ?_, hD8⟩
                      rw [tryCode_succ hm2 hB0 hc1 hc2 hB4, hw1, hw2]
                    · exact Or.inl ⟨tryCode_exit6 hm1 hA0 hc1 hc2 hA4 he,
                        tryCode_exit6 hm2 hB0 hc1 hc2 hB4 he⟩
                  · obtain ⟨e, es, hae, hde⟩ := head_digit_of_runtok hra
                    obtain ⟨f, fs, hbf, hdf⟩ := head_digit_of_runtok hrb
                    subst hae; subst hbf
                    rw [List.cons_append] at hA4 hB4
                    exact Or.inl
                      ⟨tryCode_exit6 hm1 hA0 hc1 hc2 hA4 (digit_ne_comma hde),
                       tryCode_exit6 hm2 hB0 hc1 hc2 hB4 (digit_ne_comma hdf)⟩
                · exact Or.inl ⟨tryCode_exit4 hm1 hA0 hq2, tryCode_exit4 hm2 hB0 hq2⟩
              · obtain ⟨e, es, hae, hde⟩ := head_digit_of_runtok hra
                obtain ⟨f, fs, hbf, hdf⟩ := head_digit_of_runtok hrb
                subst hae; subst hbf
                subst hA3; subst hB3
                rw [List.cons_append] at hA0 hB0
                exact Or.inl ⟨tryCode_exit4 hm1 hA0 (digit_ne_quote hde),
                  tryCode_exit4 hm2 hB0 (digit_ne_quote hdf)⟩
            · exact Or.inl ⟨tryCode_exit3 hm1 hA0 hc2, tryCode_exit3 hm2 hB0 hc2⟩
          · obtain ⟨e, es, hae, hde⟩ := head_digit_of_runtok hra
            obtain ⟨f, fs, hbf, hdf⟩ := head_digit_of_runtok hrb
            subst hae; subst hbf
            subst hA2; subst hB2
            rw [List.cons_append] at hA0 hB0
            exact Or.inl ⟨tryCode_exit3 hm1 hA0 (digit_not_upper hde),
              tryCode_exit3 hm2 hB0 (digit_not_upper hdf)⟩
        · exact Or.inl ⟨tryCode_exit2 hm1 hA0 hc1, tryCode_exit2 hm2 hB0 hc1⟩
      · obtain ⟨e, es, hae, hde⟩ := head_digit_of_runtok hra
        obtain ⟨f, fs, hbf, hdf⟩ := head_digit_of_runtok hrb
        subst hae; subst hbf
        subst hA1; subst hB1
        rw [List.cons_append] at hA0 hB0
        exact Or.inl ⟨tryCode_exit2 hm1 hA0 (digit_not_upper hde),
          tryCode_exit2 hm2 hB0 (digit_not_upper hdf)⟩
    · exact Or.inl ⟨tryCode_exit1 hm1 hA0 hq, tryCode_exit1 hm2 hB0 hq⟩
  · obtain ⟨e, es, hae, hde⟩ := head_digit_of_runtok hra
    obtain ⟨f, fs, hbf, hdf⟩ := head_digit_of_runtok hrb
    subst hae; subst hbf
    rw [List.cons_append] at hA0 hB0
    exact Or.inl ⟨tryCode_exit1 hm1 hA0 (digit_ne_quote hde),
      tryCode_exit1 hm2 hB0 (digit_ne_quote hdf)⟩

theorem codeStepFail_SIM {x y : List Char} (h : DEq x y) (hf : codeStepFail x) :
    codeStepFail y := by
  rcases tryCode_SIM h with ⟨h1, h2⟩ | ⟨cc, cd, u, u2, hs, ht, hD⟩
  · exact Or.inl h2
  · rcases hf with hf | ⟨cc0, cd0, u0, hx, hfm⟩
    · rw [hs] at hf
      cases hf
    · rw [hs] at hx
      have hu : u0 = u := by
        injection hx with hx
        injection hx with _ hx
        injection hx with _ hx
        exact hx.symm
      subst hu
      exact Or.inr ⟨cc, cd, u2, ht, findMinMax_none_SIM hD hfm⟩

theorem tryCode_head_digit {c : Char} (x : List Char) (hd : isDigitC c = true) :
    tryCode (c :: x) = none := by
  have hcm : c ≠ 'c' := fun he => by
    rw [he] at hd
    exact absurd hd (by decide)
  have hm : matchLit "code:".data (c :: x) = none := by
    rw [show ("code:".data) = 'c' :: "ode:".data from rfl]
    exact matchLit_cons_ne _ _ hcm
  simp only [tryCode, hm]

theorem findCodeMM_digits {z : List Char} (hz : z.all isDigitC = true) (w : List Char) :
    (findCodeMM (z ++ w) = none ↔ findCodeMM w = none) := by
  induction z with
  | nil => simp
  | cons c z2 ih =>
    simp only [List.all_cons, Bool.and_eq_true] at hz
    rw [← ih hz.2]
    rw [List.cons_append]
    simp only [findCodeMM, tryCode_head_digit _ hz.1]
    rcases hrec : findCodeMM (z2 ++ w) with _ | x <;> simp [hrec]

theorem findCodeMM_none_SIM {u v : List Char} (h : DEq u v)
    (hn : findCodeMM u = none) : findCodeMM v = none := by
  induction h with
  | nil => rfl
  | cons c hc h ih =>
    rename_i s t
    rcases tryCode_SIM (DEq.cons c hc h) with ⟨h1, h2⟩ | ⟨cc, cd, r, r2, hcs, hct, hDr⟩
    · simp only [findCodeMM, h1] at hn
      rcases hf : findCodeMM s with _ | x
      · simp only [findCodeMM, h2, ih hf]
      · simp only [hf] at hn
        cases hn
    · simp only [findCodeMM, hcs] at hn
      rcases hfm : findMinMax r with _ | y
      · simp only [hfm] at hn
        rcases hf : findCodeMM s with _ | x
        · simp only [findCodeMM, hct, findMinMax_none_SIM hDr hfm, ih hf]
        · simp only [hf] at hn
          cases hn
      · simp only [hfm] at hn
        cases hn
  | run a b ha hb hs ht h ih =>
    have h1 : findCodeMM _ = none := (findCodeMM_digits ha.2 _).mp hn
    exact (findCodeMM_digits hb.2 _).mpr (ih h1)

theorem tryCountryAt_none_SIM {s t : List Char} (h : DEq s t)
    (hn : tryCountryAt s = none) : tryCountryAt t = none := by
  have hlit : ("Country(".data).all (fun c => !isDigitC c) = true := by decide
  rcases matchLit_SIM hlit h with ⟨h1, h2⟩ | ⟨s1, t1, hm1, hm2, hD1⟩
  · simp only [tryCountryAt, h2]
  · simp only [tryCountryAt, hm1] at hn
    rcases hf : findCodeMM s1 with _ | ⟨⟨sk, x, sk2, mm, rest⟩⟩
    · simp only [tryCountryAt, hm2, findCodeMM_none_SIM hD1 hf]
    · simp only [hf] at hn
      cases hn

theorem takeWhile_append_hd {p : Char → Bool} {a : List Char} (b : List Char)
    (ha : a.all p = true) (hb : ∀ c, b.head? = some c → p c = false) :
    (a ++ b).takeWhile p = a := by
  rw [takeWhile_append_all _ ha]
  cases b with
  | nil => simp
  | cons c cs => rw [takeWhile_cons_neg _ (hb c rfl), List.append_nil]

theorem dropWhile_append_hd {p : Char → Bool} {a : List Char} (b : List Char)
    (ha : a.all p = true) (hb : ∀ c, b.head? = some c → p c = false) :
    (a ++ b).dropWhile p = b := by
  rw [dropWhile_append_all _ ha]
  cases b with
  | nil => rfl
  | cons c cs => exact dropWhile_cons_neg _ (hb c rfl)

theorem head_false_of_cons {p : Char → Bool} {x : List Char} {e : Char} {xs : List Char}
    (hx : x = e :: xs) (hpe : p e = false) (X : List Char) :
    ∀ c, (x ++ X).head? = some c → p c = false := by
  subst hx
  intro c hc
  simp only [List.cons_append, List.head?_cons, Option.some.injEq] at hc
  subst hc
  exact hpe

theorem head_nd_of_space_comma {w2 : List Char} (hw : w2.all isSpaceC = true)
    (Y : List Char) : ∀ c, (w2 ++ ',' :: Y).head? = some c → isDigitC c = false := by
  cases w2 with
  | nil =>
    intro c hc
    simp only [List.nil_append, List.head?_cons, Option.some.injEq] at hc
    subst hc
    decide
  | cons f fs =>
    intro c hc
    simp only [List.all_cons, Bool.and_eq_true] at hw
    simp only [List.cons_append, List.head?_cons, Option.some.injEq] at hc
    subst hc
    exact not_digit_of_space hw.1

theorem head_nd_of_headNot {r : List Char} (hr : headNotDigit r = true) :
    ∀ c, r.head? = some c → isDigitC c = false := by
  cases r with
  | nil => intro c hc; cases hc
  | cons e es =>
    intro c hc
    simp only [List.head?_cons, Option.some.injEq] at hc
    subst hc
    simpa [headNotDigit, Bool.not_eq_true'] using hr

theorem splitMaxL (X : List Char) : "maxLength:".data ++ X =
    'm' :: ("axLength:".data ++ X) := rfl

theorem tryMinMax_complete {w1 a w2 w3 w4 b r : List Char}
    (hw1 : w1.all isSpaceC = true) (ha : tokOK a)
    (hw2 : w2.all isSpaceC = true) (hw3 : w3.all isSpaceC = true) (hnl : hasNl w3 = true)
    (hw4 : w4.all isSpaceC = true) (hb : tokOK b) (hr : headNotDigit r = true) :
    tryMinMax ("minLength:".data ++ (w1 ++ (a ++ (w2 ++
        (',' :: (w3 ++ ("maxLength:".data ++ (w4 ++ (b ++ r))))))))) =
      some (⟨"minLength:".data ++ w1, a,
            w2 ++ ',' :: (w3 ++ "maxLength:".data ++ w4), b⟩, r) := by
  obtain ⟨e, es, hae, hde⟩ := head_digit_of_runtok ha
  obtain ⟨f, fs, hbf, hdf⟩ := head_digit_of_runtok hb
  have hfa : ∀ c, (a ++ (w2 ++ ',' :: (w3 ++ ("maxLength:".data ++ (w4 ++ (b ++ r)))))).head? =
      some c → isSpaceC c = false :=
    head_false_of_cons hae (not_space_of_digit hde) _
  have htk1 := takeWhile_append_hd _ hw1 hfa
  have hdp1 := dropWhile_append_hd _ hw1 hfa
  have hfd := head_nd_of_space_comma hw2 (w3 ++ ("maxLength:".data ++ (w4 ++ (b ++ r))))
  have htk2 := takeWhile_append_hd _ ha.2 hfd
  have hdp2 := dropWhile_append_hd _ ha.2 hfd
  have htk3 : (w2 ++ ',' :: (w3 ++ ("maxLength:".data ++ (w4 ++ (b ++ r))))).takeWhile
      isSpaceC = w2 := takeWhile_append_stop hw2 (by decide)
  have hdp3 : (w2 ++ ',' :: (w3 ++ ("maxLength:".data ++ (w4 ++ (b ++ r))))).dropWhile
      isSpaceC = ',' :: (w3 ++ ("maxLength:".data ++ (w4 ++ (b ++ r)))) :=
    dropWhile_append_stop hw2 (by decide)
  have htk4 : (w3 ++ ("maxLength:".data ++ (w4 ++ (b ++ r)))).takeWhile isSpaceC = w3 := by
    rw [splitMaxL]
    exact takeWhile_append_stop hw3 (by decide)
  have hdp4 : (w3 ++ ("maxLength:".data ++ (w4 ++ (b ++ r)))).dropWhile isSpaceC =
      "maxLength:".data ++ (w4 ++ (b ++ r)) := by
    rw [splitMaxL]
    exact dropWhile_append_stop hw3 (by decide)
  have hfb : ∀ c, (b ++ r).head? = some c → isSpaceC c = false :=
    head_false_of_cons hbf (not_space_of_digit hdf) _
  have htk5 := takeWhile_append_hd _ hw4 hfb
  have hdp5 := dropWhile_append_hd _ hw4 hfb
  have htk6 := takeWhile_append_hd _ hb.2 (head_nd_of_headNot hr)
  have hdp6 := dropWhile_append_hd _ hb.2 (head_nd_of_headNot hr)
  simp only [tryMinMax, matchLit_append_self, htk1, hdp1, htk2, hdp2, htk3, hdp3,
    htk4, hdp4, matchLit_append_self, htk5, hdp5, htk6, hdp6]
  rw [if_neg ha.1]
  simp [hnl, hb.1]

theorem tryCode_complete {w1 : List Char} {c1 c2 : Char} {w2c : List Char} (r : List Char)
    (hw1 : w1.all isSpaceC = true) (h1 : isUpperC c1 = true) (h2 : isUpperC c2 = true)
    (hw2 : w2c.all isSpaceC = true) :
    tryCode ("code:".data ++ (w1 ++ ('"' :: c1 :: c2 :: '"' :: (w2c ++ ',' :: r)))) =
      some ("code:".data ++ w1 ++ '"' :: c1 :: c2 :: '"' :: (w2c ++ [',']), [c1, c2], r) := by
  have htk1 : (w1 ++ ('"' :: c1 :: c2 :: '"' :: (w2c ++ ',' :: r))).takeWhile isSpaceC = w1 :=
    takeWhile_append_stop hw1 (by decide)
  have hdp1 : (w1 ++ ('"' :: c1 :: c2 :: '"' :: (w2c ++ ',' :: r))).dropWhile isSpaceC =
      '"' :: c1 :: c2 :: '"' :: (w2c ++ ',' :: r) :=
    dropWhile_append_stop hw1 (by decide)
  have htk2 : (w2c ++ ',' :: r).takeWhile isSpaceC = w2c :=
    takeWhile_append_stop hw2 (by decide)
  have hdp2 : (w2c ++ ',' :: r).dropWhile isSpaceC = ',' :: r :=
    dropWhile_append_stop hw2 (by decide)
  simp only [tryCode, matchLit_append_self, htk1, hdp1, htk2, hdp2]
  rw [if_pos ⟨trivial, trivial, h1, h2⟩]
  simp

theorem findMinMax_complete {sk T : List Char} {mm : MinMaxParts} {r : List Char}
    (hfail : ∀ j < sk.length, tryMinMax (List.drop j (sk ++ T)) = none)
    (hT : tryMinMax T = some (mm, r)) :
    findMinMax (sk ++ T) = some (sk, mm, r) := by
  induction sk with
  | nil =>
    cases T with
    | nil =>
      rw [show tryMinMax ([] : List Char) = none from rfl] at hT
      cases hT
    | cons c cs =>
      rw [List.nil_append]
      simp only [findMinMax, hT]
  | cons c sk2 ih =>
    have h0 : tryMinMax (c :: (sk2 ++ T)) = none := by
      have := hfail 0 (by simp)
      simpa using this
    rw [List.cons_append]
    simp only [findMinMax, h0]
    rw [ih (fun j hj => by
      have := hfail (j + 1) (by simp only [List.length_cons]; omega)
      simpa [List.drop_succ_cons] using this)]

theorem findCodeMM_complete {sk T cc cd u sk2 : List Char} {mm : MinMaxParts} {r : List Char}
    (hfail : ∀ j < sk.length, codeStepFail (List.drop j (sk ++ T)))
    (htc : tryCode T = some (cc, cd, u)) (hfm : findMinMax u = some (sk2, mm, r)) :
    findCodeMM (sk ++ T) = some (sk, (cc, cd), sk2, mm, r) := by
  induction sk with
  | nil =>
    cases T with
    | nil =>
      rw [show tryCode ([] : List Char) = none from rfl] at htc
      cases htc
    | cons c cs =>
      rw [List.nil_append]
      simp only [findCodeMM, htc, hfm]
  | cons c sk0 ih =>
    have hrec := ih (fun j hj => by
      have := hfail (j + 1) (by simp only [List.length_cons]; omega)
      simpa [List.drop_succ_cons] using this)
    have h0 := hfail 0 (by simp)
    simp only [List.drop_zero] at h0
    rw [List.cons_append] at h0 ⊢
    rcases h0 with h0 | ⟨cc0, cd0, u0, htc0, hfm0⟩
    · simp only [findCodeMM, h0, hrec]
    · simp only [findCodeMM, htc0, hfm0, hrec]

theorem tryCountryAt_complete (g : CShape) (a b r : List Char)
    (hg : shapeWF g) (ha : tokOK a) (hb : tokOK b) (hr : headNotDigit r = true)
    (hmin : minimality g a b r) :
    tryCountryAt ("Country(".data ++ innerText g a b r) = some (mOf g a b, r) := by
  obtain ⟨hu1, hu2, hw1, hw2c, hwl, hw2, hw3, hw4, hnl⟩ := hg
  have hT : tryMinMax ("minLength:".data ++ (g.wl ++ (a ++ (sepOf g ++ (b ++ r))))) =
      some (⟨"minLength:".data ++ g.wl, a, sepOf g, b⟩, r) := by
    have h := tryMinMax_complete hwl ha hw2 hw3 hnl hw4 hb hr
    have harg : "minLength:".data ++ (g.wl ++ (a ++ (sepOf g ++ (b ++ r)))) =
        "minLength:".data ++ (g.wl ++ (a ++ (g.w2 ++
          (',' :: (g.w3 ++ ("maxLength:".data ++ (g.w4 ++ (b ++ r)))))))) := by
      simp [sepOf, List.append_assoc]
    rw [harg, h]
    simp [sepOf]
  have hfm : findMinMax (g.sk2 ++ ("minLength:".data ++ (g.wl ++ (a ++ (sepOf g ++ (b ++ r)))))) =
      some (g.sk2, ⟨"minLength:".data ++ g.wl, a, sepOf g, b⟩, r) := by
    refine findMinMax_complete (fun j hj => ?_) hT
    have := hmin.2 j hj
    have harg : g.sk2 ++ "minLength:".data ++ g.wl ++ a ++ sepOf g ++ b ++ r =
        g.sk2 ++ ("minLength:".data ++ (g.wl ++ (a ++ (sepOf g ++ (b ++ r))))) := by
      simp [List.append_assoc]
    rw [harg] at this
    exact this
  have htc : tryCode (ccOf g ++ (g.sk2 ++ ("minLength:".data ++ (g.wl ++ (a ++ (sepOf g ++ (b ++ r))))))) =
      some (ccOf g, [g.c1, g.c2], g.sk2 ++ ("minLength:".data ++ (g.wl ++ (a ++ (sepOf g ++ (b ++ r)))))) := by
    have h := tryCode_complete (r := g.sk2 ++ ("minLength:".data ++ (g.wl ++ (a ++ (sepOf g ++ (b ++ r))))))
      hw1 hu1 hu2 hw2c
    have harg : ccOf g ++ (g.sk2 ++ ("minLength:".data ++ (g.wl ++ (a ++ (sepOf g ++ (b ++ r)))))) =
        "code:".data ++ (g.w1 ++ ('"' :: g.c1 :: g.c2 :: '"' :: (g.w2c ++ ',' ::
          (g.sk2 ++ ("minLength:".data ++ (g.wl ++ (a ++ (sepOf g ++ (b ++ r)))))))))  := by
      simp [ccOf, List.append_assoc]
    rw [harg, h]
    simp [ccOf]
  have hfind : findCodeMM (innerText g a b r) =
      some (g.sk, (ccOf g, [g.c1, g.c2]), g.sk2, ⟨"minLength:".data ++ g.wl, a, sepOf g, b⟩, r) := by
    have harg : innerText g a b r = g.sk ++ (ccOf g ++ (g.sk2 ++ ("minLength:".data ++
        (g.wl ++ (a ++ (sepOf g ++ (b ++ r))))))) := by
      simp [innerText, List.append_assoc]
    rw [harg]
    refine findCodeMM_complete (fun j hj => ?_) htc hfm
    have := hmin.1 j hj
    rw [harg] at this
    exact this
  simp only [tryCountryAt, matchLit_append_self, hfind]
  simp [mOf, g1Of, List.append_assoc]

theorem findCountry_complete {p W : List Char} {m : CountryMatch} {r : List Char}
    (hfail : ∀ j < p.length, tryCountryAt (List.drop j (p ++ W)) = none)
    (hW : tryCountryAt W = some (m, r)) :
    findCountry (p ++ W) = some (p, m, r) := by
  induction p with
  | nil =>
    cases W with
    | nil =>
      rw [show tryCountryAt ([] : List Char) = none from rfl] at hW
      cases hW
    | cons c cs =>
      rw [List.nil_append]
      simp only [findCountry, hW]
  | cons c p0 ih =>
    have h0 : tryCountryAt (c :: (p0 ++ W)) = none := by
      have := hfail 0 (by simp)
      simpa using this
    rw [List.cons_append]
    simp only [findCountry, h0]
    rw [ih (fun j hj => by
      have := hfail (j + 1) (by simp only [List.length_cons]; omega)
      simpa [List.drop_succ_cons] using this)]

theorem DEq_append_nodigit {z : List Char} (hz : z.all (fun c => !isDigitC c) = true)
    {x y : List Char} (h : DEq x y) : DEq (z ++ x) (z ++ y) := by
  induction z with
  | nil => exact h
  | cons c cs ih =>
    simp only [List.all_cons, Bool.and_eq_true, Bool.not_eq_true'] at hz
    exact DEq.cons c hz.1 (ih hz.2)

theorem nodigit_of_space {w : List Char} (hw : w.all isSpaceC = true) :
    w.all (fun c => !isDigitC c) = true := by
  rw [List.all_eq_true] at hw ⊢
  intro c hc
  simp only [Bool.not_eq_true']
  exact not_digit_of_space (hw c hc)

theorem nodigit_append {u v : List Char} (hu : u.all (fun c => !isDigitC c) = true)
    (hv : v.all (fun c => !isDigitC c) = true) :
    (u ++ v).all (fun c => !isDigitC c) = true := by
  rw [List.all_append, hu, hv]
  rfl

theorem nodigit_sepOf {g : CShape} (hw2 : g.w2.all isSpaceC = true)
    (hw3 : g.w3.all isSpaceC = true) (hw4 : g.w4.all isSpaceC = true) :
    (sepOf g).all (fun c => !isDigitC c) = true := by
  unfold sepOf
  refine nodigit_append (nodigit_of_space hw2) ?_
  simp only [List.all_cons, Bool.and_eq_true]
  refine ⟨by decide, ?_⟩
  exact nodigit_append (nodigit_append (nodigit_of_space hw3) (by decide))
    (nodigit_of_space hw4)

theorem nodigit_ccOf {g : CShape} (hu1 : isUpperC g.c1 = true) (hu2 : isUpperC g.c2 = true)
    (hw1 : g.w1.all isSpaceC = true) (hw2c : g.w2c.all isSpaceC = true) :
    (ccOf g).all (fun c => !isDigitC c) = true := by
  unfold ccOf
  refine nodigit_append (nodigit_append (by decide) (nodigit_of_space hw1)) ?_
  simp only [List.all_cons, Bool.and_eq_true, Bool.not_eq_true']
  exact ⟨by decide, not_digit_of_upper hu1, not_digit_of_upper hu2, by decide,
    nodigit_append (nodigit_of_space hw2c) (by decide)⟩

theorem headNotDigit_lit_country (X : List Char) :
    headNotDigit ("Country(".data ++ X) = true := rfl

theorem headNotDigit_lit_min (X : List Char) :
    headNotDigit ("minLength:".data ++ X) = true := rfl

theorem headNotDigit_ccOf (g : CShape) (X : List Char) :
    headNotDigit (ccOf g ++ X) = true := rfl

theorem headNotDigit_sepOf {g : CShape} (hw2 : g.w2.all isSpaceC = true) (X : List Char) :
    headNotDigit (sepOf g ++ X) = true := by
  unfold sepOf
  rcases hcw : g.w2 with _ | ⟨e, es⟩
  · rfl
  · rw [hcw] at hw2
    simp only [List.all_cons, Bool.and_eq_true] at hw2
    simp only [List.cons_append, headNotDigit, Bool.not_eq_true']
    exact not_digit_of_space hw2.1

theorem headNotDigit_whole (g : CShape) (a b r : List Char) :
    headNotDigit (wholeMatch (mOf g a b) ++ r) = true := by
  rw [wholeMatch_mOf]
  exact headNotDigit_lit_country _

theorem DEq_mmtail {g : CShape} {a b r a2 b2 r2 : List Char} (hg : shapeWF g)
    (ha : tokOK a) (hb : tokOK b) (ha2 : tokOK a2) (hb2 : tokOK b2)
    (hr : headNotDigit r = true) (hr2 : headNotDigit r2 = true) (hD : DEq r r2) :
    DEq ("minLength:".data ++ (g.wl ++ (a ++ (sepOf g ++ (b ++ r)))))
        ("minLength:".data ++ (g.wl ++ (a2 ++ (sepOf g ++ (b2 ++ r2))))) := by
  obtain ⟨_, _, _, _, hwl, hw2, hw3, hw4, _⟩ := hg
  have h1 : DEq (b ++ r) (b2 ++ r2) := DEq.run b b2 hb hb2 hr hr2 hD
  have h2 : DEq (sepOf g ++ (b ++ r)) (sepOf g ++ (b2 ++ r2)) :=
    DEq_append_nodigit (nodigit_sepOf hw2 hw3 hw4) h1
  have h3 : DEq (a ++ (sepOf g ++ (b ++ r))) (a2 ++ (sepOf g ++ (b2 ++ r2))) :=
    DEq.run a a2 ha ha2 (headNotDigit_sepOf hw2 _) (headNotDigit_sepOf hw2 _) h2
  exact DEq_append_nodigit (by decide)
    (DEq_append_nodigit (nodigit_of_space hwl) h3)

theorem DEq_codetail {g : CShape} {a b r a2 b2 r2 : List Char} (hg : shapeWF g)
    (ha : tokOK a) (hb : tokOK b) (ha2 : tokOK a2) (hb2 : tokOK b2)
    (hr : headNotDigit r = true) (hr2 : headNotDigit r2 = true) (hD : DEq r r2) :
    DEq (ccOf g ++ (g.sk2 ++ ("minLength:".data ++ (g.wl ++ (a ++ (sepOf g ++ (b ++ r)))))))
        (ccOf g ++ (g.sk2 ++ ("minLength:".data ++ (g.wl ++ (a2 ++ (sepOf g ++ (b2 ++ r2))))))) := by
  refine DEq_append_nodigit (nodigit_ccOf hg.1 hg.2.1 hg.2.2.1 hg.2.2.2.1) ?_
  exact DEq_append_left (headNotDigit_lit_min _) (headNotDigit_lit_min _)
    (DEq_mmtail hg ha hb ha2 hb2 hr hr2 hD) g.sk2

theorem DEq_inner {g : CShape} {a b r a2 b2 r2 : List Char} (hg : shapeWF g)
    (ha : tokOK a) (hb : tokOK b) (ha2 : tokOK a2) (hb2 : tokOK b2)
    (hr : headNotDigit r = true) (hr2 : headNotDigit r2 = true) (hD : DEq r r2) :
    DEq (innerText g a b r) (innerText g a2 b2 r2) := by
  have h := DEq_append_left (headNotDigit_ccOf g _) (headNotDigit_ccOf g _)
    (DEq_codetail hg ha hb ha2 hb2 hr hr2 hD) g.sk
  unfold innerText
  simpa [List.append_assoc] using h

theorem DEq_whole {g : CShape} {a b r a2 b2 r2 : List Char} (hg : shapeWF g)
    (ha : tokOK a) (hb : tokOK b) (ha2 : tokOK a2) (hb2 : tokOK b2)
    (hr : headNotDigit r = true) (hr2 : headNotDigit r2 = true) (hD : DEq r r2) :
    DEq (wholeMatch (mOf g a b) ++ r) (wholeMatch (mOf g a2 b2) ++ r2) := by
  rw [wholeMatch_mOf, wholeMatch_mOf]
  exact DEq_append_nodigit (by decide) (DEq_inner hg ha hb ha2 hb2 hr hr2 hD)

theorem minimality_transfer {g : CShape} {a b r a2 b2 r2 : List Char} (hg : shapeWF g)
    (ha : tokOK a) (hb : tokOK b) (ha2 : tokOK a2) (hb2 : tokOK b2)
    (hr : headNotDigit r = true) (hr2 : headNotDigit r2 = true) (hD : DEq r r2)
    (hm : minimality g a b r) : minimality g a2 b2 r2 := by
  constructor
  · intro j hj
    have h0 := hm.1 j hj
    have e1 : innerText g a b r = g.sk ++ (ccOf g ++ (g.sk2 ++ ("minLength:".data ++
        (g.wl ++ (a ++ (sepOf g ++ (b ++ r))))))) := by
      simp [innerText, List.append_assoc]
    have e2 : innerText g a2 b2 r2 = g.sk ++ (ccOf g ++ (g.sk2 ++ ("minLength:".data ++
        (g.wl ++ (a2 ++ (sepOf g ++ (b2 ++ r2))))))) := by
      simp [innerText, List.append_assoc]
    rw [e1, List.drop_append_of_le_length (le_of_lt hj)] at h0
    rw [show innerText g a2 b2 r2 = _ from e2,
      List.drop_append_of_le_length (le_of_lt hj)]
    exact codeStepFail_SIM (DEq_append_left (headNotDigit_ccOf g _) (headNotDigit_ccOf g _)
      (DEq_codetail hg ha hb ha2 hb2 hr hr2 hD) (g.sk.drop j)) h0
  · intro j hj
    have h0 := hm.2 j hj
    have e1 : g.sk2 ++ "minLength:".data ++ g.wl ++ a ++ sepOf g ++ b ++ r =
        g.sk2 ++ ("minLength:".data ++ (g.wl ++ (a ++ (sepOf g ++ (b ++ r))))) := by
      simp [List.append_assoc]
    have e2 : g.sk2 ++ "minLength:".data ++ g.wl ++ a2 ++ sepOf g ++ b2 ++ r2 =
        g.sk2 ++ ("minLength:".data ++ (g.wl ++ (a2 ++ (sepOf g ++ (b2 ++ r2))))) := by
      simp [List.append_assoc]
    rw [e1, List.drop_append_of_le_length (le_of_lt hj)] at h0
    rw [e2, List.drop_append_of_le_length (le_of_lt hj)]
    exact tryMinMax_none_SIM (DEq_append_left (headNotDigit_lit_min _) (headNotDigit_lit_min _)
      (DEq_mmtail hg ha hb ha2 hb2 hr hr2 hD) (g.sk2.drop j)) h0

theorem pyParseDigits_tok {a : List Char} (ha : tokOK a) :
    pyParseDigits? a = some (digitsVal a) := by
  unfold pyParseDigits?
  rw [if_pos ⟨ha.1, ha.2⟩]

theorem mergeMin_idem (amin c : Int) : mergeMin amin (mergeMin amin c) = mergeMin amin c := by
  unfold mergeMin
  split_ifs <;> omega

theorem mergeMax_idem (amax c : Int) : mergeMax amax (mergeMax amax c) = mergeMax amax c := by
  unfold mergeMax
  split_ifs <;> omega

theorem replacer_idem (L : List (List Char × (Int × Int))) (m : CountryMatch)
    (ha : tokOK m.minTok) (hb : tokOK m.maxTok) :
    ∃ a2 b2, tokOK a2 ∧ tokOK b2 ∧ replacer L m = m.g1 ++ a2 ++ m.sep ++ b2 ∧
      replacer L ⟨m.g1, m.code, a2, m.sep, b2⟩ = m.g1 ++ a2 ++ m.sep ++ b2 := by
  rcases hL : lookupD L m.code with _ | ⟨amin, amax⟩
  · exact ⟨m.minTok, m.maxTok, ha, hb,
      by simp only [replacer, hL, wholeMatch],
      by simp only [replacer, hL, wholeMatch]⟩
  · by_cases hle : amin ≤ 0
    · exact ⟨m.minTok, m.maxTok, ha, hb,
        by simp only [replacer, hL, if_pos hle, wholeMatch],
        by simp only [replacer, hL, if_pos hle, wholeMatch]⟩
    · have hpa := pyParseDigits_tok ha
      have hpb := pyParseDigits_tok hb
      by_cases hch : mergeMin amin ((digitsVal m.minTok : Int)) = ((digitsVal m.minTok : Int)) ∧
          mergeMax amax ((digitsVal m.maxTok : Int)) = ((digitsVal m.maxTok : Int))
      · exact ⟨m.minTok, m.maxTok, ha, hb,
          by simp only [replacer, hL, if_neg hle, hpa, hpb, if_pos hch, wholeMatch],
          by simp only [replacer, hL, if_neg hle, hpa, hpb, if_pos hch, wholeMatch]⟩
      · have hmin0 : (0 : Int) ≤ mergeMin amin ((digitsVal m.minTok : Int)) := by
          unfold mergeMin
          split <;> omega
        have hmax0 : (0 : Int) ≤ mergeMax amax ((digitsVal m.maxTok : Int)) := by
          unfold mergeMax
          split <;> omega
        refine ⟨pyStr (mergeMin amin ((digitsVal m.minTok : Int))),
          pyStr (mergeMax amax ((digitsVal m.maxTok : Int))),
          pyStr_tokOK hmin0, pyStr_tokOK hmax0,
          by simp only [replacer, hL, if_neg hle, hpa, hpb, if_neg hch], ?_⟩
        have hra := pyStr_roundtrip hmin0
        have hrb := pyStr_roundtrip hmax0
        have hcast1 : (((mergeMin amin ((digitsVal m.minTok : Int))).toNat : Int)) =
            mergeMin amin ((digitsVal m.minTok : Int)) := Int.toNat_of_nonneg hmin0
        have hcast2 : (((mergeMax amax ((digitsVal m.maxTok : Int))).toNat : Int)) =
            mergeMax amax ((digitsVal m.maxTok : Int)) := Int.toNat_of_nonneg hmax0
        simp only [replacer, hL, if_neg hle, hra, hrb]
        rw [if_pos ⟨by rw [hcast1]; exact mergeMin_idem _ _,
          by rw [hcast2]; exact mergeMax_idem _ _⟩]
        simp only [wholeMatch]

theorem DEq_update_aux (L : List (List Char × (Int × Int))) :
    ∀ (n : Nat) (s : List Char), s.length ≤ n → DEq s (update_lengths L s) := by
  intro n
  induction n with
  | zero =>
    intro s hs
    have hnil : s = [] := List.length_eq_zero.mp (by omega)
    subst hnil
    rw [update_peel_none L (show findCountry [] = none from rfl)]
    exact DEq.nil
  | succ n ih =>
    intro s hs
    rcases hfc : findCountry s with _ | ⟨⟨p, m, r⟩⟩
    · rw [update_peel_none L hfc]
      exact DEq_refl s
    · have hlen := findCountry_length hfc
      obtain ⟨e1, e2, e3⟩ := findCountry_sound hfc
      obtain ⟨g, a, b, hm0, hgwf, hta, htb, hhr, heq, hmin⟩ := tryCountryAt_sound e2
      subst hm0
      obtain ⟨a2, b2, ha2, hb2, hrep⟩ :=
        replacer_shape L (mOf g a b) hta htb
      have hDr : DEq r (update_lengths L r) := ih r (by omega)
      have hhr2 : headNotDigit (update_lengths L r) = true := by
        rw [← DEq_headNotDigit hDr]
        exact hhr
      have hw : DEq (wholeMatch (mOf g a b) ++ r)
          (wholeMatch (mOf g a2 b2) ++ update_lengths L r) :=
        DEq_whole hgwf hta htb ha2 hb2 hhr hhr2 hDr
      rw [update_peel_some L hfc, hrep]
      have hR : (mOf g a b).g1 ++ a2 ++ (mOf g a b).sep ++ b2 = wholeMatch (mOf g a2 b2) := by
        simp [wholeMatch, mOf, List.append_assoc]
      rw [hR]
      conv_lhs => rw [e1]
      rw [List.append_assoc, List.append_assoc]
      exact DEq_append_left (headNotDigit_whole g a b r) (headNotDigit_whole g a2 b2 _) hw p

theorem DEq_update (L : List (List Char × (Int × Int))) (s : List Char) :
    DEq s (update_lengths L s) :=
  DEq_update_aux L s.length s (le_refl _)

theorem update_idem_aux (L : List (List Char × (Int × Int))) :
    ∀ (n : Nat) (s : List Char), s.length ≤ n →
      update_lengths L (update_lengths L s) = update_lengths L s := by
  intro n
  induction n with
  | zero =>
    intro s hs
    have hnil : s = [] := List.length_eq_zero.mp (by omega)
    subst hnil
    have h0 : update_lengths L [] = [] := update_peel_none L rfl
    rw [h0, h0]
  | succ n ih =>
    intro s hs
    rcases hfc : findCountry s with _ | ⟨⟨p, m, r⟩⟩
    · have h0 := update_peel_none L hfc
      rw [h0, h0]
    · have hlen := findCountry_length hfc
      obtain ⟨e1, e2, e3⟩ := findCountry_sound hfc
      obtain ⟨g, a, b, hm0, hgwf, hta, htb, hhr, heq, hmin⟩ := tryCountryAt_sound e2
      subst hm0
      obtain ⟨a2, b2, ha2, hb2, hrep, hrep2⟩ := replacer_idem L (mOf g a b) hta htb
      have hDr : DEq r (update_lengths L r) := DEq_update L r
      have hhr2 : headNotDigit (update_lengths L r) = true := by
        rw [← DEq_headNotDigit hDr]
        exact hhr
      have hmin2 : minimality g a2 b2 (update_lengths L r) :=
        minimality_transfer hgwf hta htb ha2 hb2 hhr hhr2 hDr hmin
      have htry2 : tryCountryAt (wholeMatch (mOf g a2 b2) ++ update_lengths L r) =
          some (mOf g a2 b2, update_lengths L r) := by
        rw [wholeMatch_mOf]
        exact tryCountryAt_complete g a2 b2 _ hgwf ha2 hb2 hhr2 hmin2
      have hR : replacer L (mOf g a b) = wholeMatch (mOf g a2 b2) := by
        rw [hrep]
        simp [wholeMatch, mOf, List.append_assoc]
      have hu1 : update_lengths L s = p ++ wholeMatch (mOf g a2 b2) ++ update_lengths L r := by
        rw [update_peel_some L hfc, hR]
      have hfail2 : ∀ j < p.length, tryCountryAt
          (List.drop j (p ++ (wholeMatch (mOf g a2 b2) ++ update_lengths L r))) = none := by
        intro j hj
        have h0 := e3 j hj
        rw [e1, List.append_assoc, List.drop_append_of_le_length (le_of_lt hj)] at h0
        rw [List.drop_append_of_le_length (le_of_lt hj)]
        exact tryCountryAt_none_SIM (DEq_append_left (headNotDigit_whole g a b r)
          (headNotDigit_whole g a2 b2 _)
          (DEq_whole hgwf hta htb ha2 hb2 hhr hhr2 hDr) (p.drop j)) h0
      have hfc2 : findCountry (update_lengths L s) =
          some (p, mOf g a2 b2, update_lengths L r) := by
        rw [hu1, List.append_assoc]
        exact findCountry_complete hfail2 htry2
      have hR2 : replacer L (mOf g a2 b2) = wholeMatch (mOf g a2 b2) := by
        have hmm : (⟨(mOf g a b).g1, (mOf g a b).code, a2, (mOf g a b).sep, b2⟩ :
            CountryMatch) = mOf g a2 b2 := rfl
        rw [hmm] at hrep2
        rw [hrep2]
        simp [wholeMatch, mOf, List.append_assoc]
      rw [update_peel_some L hfc2, hR2, ih r (by omega), hu1]

/-- C9: the length patcher is idempotent — running `update_lengths` a second
time with the same authoritative map returns the first run's output unchanged
(each run is idempotent given identical inputs). -/
theorem update_lengths_idempotent (L : List (List Char × (Int × Int))) (s : List Char) :
    update_lengths L (update_lengths L s) = update_lengths L s :=
  update_idem_aux L s.length s (le_refl _)
